import Mathlib

/-!
Shallow embedding of `src/todo_cli.py` (a markdown-file todo CLI).

Files are modelled as `List Char` (byte-for-byte content); an absent file is
`none : Option (List Char)`.  A task is the Python dict
`{"checked": bool, "timestamp": str, "text": str}` with strings as `List Char`.
Python's stable `sorted(..., key=...)` is embedded as `List.insertionSort`
(a stable sort); `datetime` arithmetic is embedded by a verified Gregorian
day-number codec.  Python's `re` digit class is modelled over ASCII digits,
which covers every string the program itself produces.
-/

set_option maxHeartbeats 1000000

/-- A todo item, `{"checked": ..., "timestamp": ..., "text": ...}`. -/
structure Todo where
  checked : Bool
  timestamp : List Char
  text : List Char
deriving DecidableEq, Repr

/-- The characters stripped by Python `str.rstrip()` (`str.isspace` set). -/
def isPySpace (c : Char) : Bool :=
  c = ' ' || c = '\t' || c = '\n' || c = '\r' ||
  c = Char.ofNat 0x0b || c = Char.ofNat 0x0c ||
  (0x1c ≤ c.toNat && c.toNat ≤ 0x1f) || c.toNat = 0x85 || c.toNat = 0xa0 ||
  c.toNat = 0x1680 || (0x2000 ≤ c.toNat && c.toNat ≤ 0x200a) ||
  c.toNat = 0x2028 || c.toNat = 0x2029 || c.toNat = 0x202f ||
  c.toNat = 0x205f || c.toNat = 0x3000

/-- Python `line.rstrip()`: drop trailing whitespace. -/
def rstrip (l : List Char) : List Char :=
  (l.reverse.dropWhile isPySpace).reverse

/-- `\d{4}-\d{2}-\d{2}`: the exact shape of a stored timestamp. -/
def isDateFmt : List Char → Bool
  | [y1, y2, y3, y4, h1, m1, m2, h2, d1, d2] =>
    y1.isDigit && y2.isDigit && y3.isDigit && y4.isDigit && h1 = '-' &&
    m1.isDigit && m2.isDigit && h2 = '-' && d1.isDigit && d2.isDigit
  | _ => false

/-- Consume the `(\d{4}-\d{2}-\d{2})` group; return it and the rest of the line. -/
def parseDate : List Char → Option (List Char × List Char)
  | y1 :: y2 :: y3 :: y4 :: '-' :: m1 :: m2 :: '-' :: d1 :: d2 :: rest =>
    if (y1.isDigit && y2.isDigit && y3.isDigit && y4.isDigit &&
        m1.isDigit && m2.isDigit && d1.isDigit && d2.isDigit) = true then
      some ([y1, y2, y3, y4, '-', m1, m2, '-', d1, d2], rest)
    else none
  | _ => none

/-- Match `^- \[([ x])\] (\d{4}-\d{2}-\d{2}) (.+)$` against an rstripped line.
`(.+)$` forces a non-empty text group with no newline. -/
def parseStripped : List Char → Option Todo
  | '-' :: ' ' :: '[' :: c :: ']' :: ' ' :: rest =>
    if c = ' ' ∨ c = 'x' then
      match parseDate rest with
      | some (ds, ' ' :: txt) =>
        if txt ≠ [] ∧ ¬ txt.contains '\n' then some ⟨c == 'x', ds, txt⟩ else none
      | _ => none
    else none
  | _ => none

/-- The per-line match in `load_todos`: `re.match(pat, line.rstrip())`. -/
def parseLine (line : List Char) : Option Todo :=
  parseStripped (rstrip line)

/-- One rendered record without its newline: `- [{x| }] {timestamp} {text}`. -/
def lineOf (t : Todo) : List Char :=
  '-' :: ' ' :: '[' :: (if t.checked then 'x' else ' ') :: ']' :: ' ' ::
    (t.timestamp ++ ' ' :: t.text)

/-- `f"- [{checkbox}] {todo['timestamp']} {todo['text']}\n"` as written by
`save_todos`. -/
def formatLine (t : Todo) : List Char :=
  lineOf t ++ ['\n']

/-- Split file content into lines the way Python text-mode iteration does
(universal newlines: `\n`, `\r`, `\r\n` all end a line; terminators dropped). -/
def fileLines : List Char → List (List Char)
  | [] => []
  | '\r' :: '\n' :: rest => [] :: fileLines rest
  | '\n' :: rest => [] :: fileLines rest
  | '\r' :: rest => [] :: fileLines rest
  | c :: rest =>
    match fileLines rest with
    | [] => [[c]]
    | l :: ls => (c :: l) :: ls

/-- `load_todos()`: missing file gives `[]`; otherwise parse each line,
silently skipping lines that do not match. -/
def load_todos (file : Option (List Char)) : List Todo :=
  match file with
  | none => []
  | some content => (fileLines content).filterMap parseLine

/-- The unchecked partition, `[t for t in todos if not t["checked"]]`. -/
def uncheckedOf (l : List Todo) : List Todo := l.filter fun t => !t.checked

/-- The checked partition, `[t for t in todos if t["checked"]]`. -/
def checkedOf (l : List Todo) : List Todo := l.filter fun t => t.checked

/-- Python string `<=` restricted to `List Char` (code-point lexicographic). -/
def lexLe : List Char → List Char → Bool
  | [], _ => true
  | _ :: _, [] => false
  | a :: as, b :: bs => if a = b then lexLe as bs else decide (a < b)

/-- The sort key of `save_todos`: compare tasks by timestamp. -/
def tsLe (a b : Todo) : Prop := lexLe a.timestamp b.timestamp = true

instance : DecidableRel tsLe := fun a b => by unfold tsLe; infer_instance

/-- Python's stable `sorted(..., key=lambda t: t["timestamp"])`. -/
def sortTs (l : List Todo) : List Todo := List.insertionSort tsLe l

/-- Concatenate the rendered lines of a list of tasks. -/
def concatLines (ts : List Todo) : List Char :=
  ts.foldr (fun t acc => formatLine t ++ acc) []

/-- `save_todos(todos)`: unchecked sorted by timestamp (stable), then checked
in memory order, one rendered line each; the result is the whole new file. -/
def save_todos (todos : List Todo) : List Char :=
  concatLines (sortTs (uncheckedOf todos) ++ checkedOf todos)

/-- `add_todo(note)` with the clock supplied explicitly
(`timestamp = datetime.now().strftime("%Y-%m-%d")`). -/
def add_todo (file : Option (List Char)) (today note : List Char) : List Char :=
  save_todos (load_todos file ++ [⟨false, today, note⟩])

/-- Decimal rendering of a Python `int` (as in `f"{index}"`). -/
def intChars (i : Int) : List Char :=
  if i < 0 then '-' :: Nat.toDigits 10 i.natAbs else Nat.toDigits 10 i.toNat

def noUncheckedMsg : List Char := "No unchecked items.".toList

def noCheckedMsg : List Char := "No checked items.".toList

/-- `f"Invalid index: {index}. Must be between 1 and {n}."` -/
def invalidIndexMsg (index : Int) (n : Nat) : List Char :=
  "Invalid index: ".toList ++ intChars index ++
    ". Must be between 1 and ".toList ++ intChars (n : Int) ++ ".".toList

/-- Observable outcome of one CLI command: the primary file afterwards, the
stderr message if any, and the process exit status. -/
structure CmdOut where
  file : Option (List Char)
  err : Option (List Char)
  exit : Nat
deriving DecidableEq, Repr

/-- `check_todo(index)`. Failure paths (`sys.exit(1)`) never write the file. -/
def check_todo (file : Option (List Char)) (index : Int) : CmdOut :=
  let todos := load_todos file
  let u := uncheckedOf todos
  let c := checkedOf todos
  if u.isEmpty then ⟨file, some noUncheckedMsg, 1⟩
  else if index < 1 ∨ (u.length : Int) < index then
    ⟨file, some (invalidIndexMsg index u.length), 1⟩
  else
    match getElem? u (index - 1).toNat with
    | some item =>
      ⟨some (save_todos ((u.eraseIdx (index - 1).toNat) ++
        { item with checked := true } :: c)), none, 0⟩
    | none => ⟨file, none, 1⟩

/-- `rm_todo(index)`. -/
def rm_todo (file : Option (List Char)) (index : Int) : CmdOut :=
  let todos := load_todos file
  let u := uncheckedOf todos
  let c := checkedOf todos
  if u.isEmpty then ⟨file, some noUncheckedMsg, 1⟩
  else if index < 1 ∨ (u.length : Int) < index then
    ⟨file, some (invalidIndexMsg index u.length), 1⟩
  else
    ⟨some (save_todos ((u.eraseIdx (index - 1).toNat) ++ c)), none, 0⟩

/-- `uncheck_todo(index)`. -/
def uncheck_todo (file : Option (List Char)) (index : Int) : CmdOut :=
  let todos := load_todos file
  let u := uncheckedOf todos
  let c := checkedOf todos
  if c.isEmpty then ⟨file, some noCheckedMsg, 1⟩
  else if index < 1 ∨ (c.length : Int) < index then
    ⟨file, some (invalidIndexMsg index c.length), 1⟩
  else
    match getElem? c (index - 1).toNat with
    | some item =>
      ⟨some (save_todos ((u ++ [{ item with checked := false }]) ++
        c.eraseIdx (index - 1).toNat)), none, 0⟩
    | none => ⟨file, none, 1⟩

def noArchiveMsg : List Char := "No completed items to archive.".toList

/-- Outcome of `archive_todos()`: both files, the stdout message, exit status. -/
structure ArchOut where
  primary : Option (List Char)
  archive : Option (List Char)
  out : List Char
  exit : Nat
deriving DecidableEq, Repr

/-- `f"Archived {n} item{'s' if n != 1 else ''}."` -/
def archivedMsg (n : Nat) : List Char :=
  "Archived ".toList ++ intChars (n : Int) ++ " item".toList ++
    (if n ≠ 1 then ['s'] else []) ++ ".".toList

/-- `archive_todos()`: append all checked tasks to the archive file (creating
it if absent), then save only the unchecked tasks; a no-op when nothing is
checked. -/
def archive_todos (primary archive : Option (List Char)) : ArchOut :=
  let todos := load_todos primary
  let u := uncheckedOf todos
  let c := checkedOf todos
  if c.isEmpty then ⟨primary, archive, noArchiveMsg, 0⟩
  else
    ⟨some (save_todos u), some ((archive.getD []) ++ concatLines c),
      archivedMsg c.length, 0⟩

/-- Numeric value of an ASCII digit. -/
def digitVal (c : Char) : Nat := c.toNat - 48

/-- The ASCII digit for a value below ten. -/
def digitChar : Nat → Char
  | 0 => '0' | 1 => '1' | 2 => '2' | 3 => '3' | 4 => '4'
  | 5 => '5' | 6 => '6' | 7 => '7' | 8 => '8' | _ => '9'

/-- `%m`/`%d` rendering: two digits, zero padded. -/
def pad2 (n : Nat) : List Char := [digitChar (n / 10 % 10), digitChar (n % 10)]

/-- `%Y` rendering: four digits, zero padded. -/
def pad4 (n : Nat) : List Char :=
  [digitChar (n / 1000 % 10), digitChar (n / 100 % 10),
   digitChar (n / 10 % 10), digitChar (n % 10)]

/-- Gregorian leap year. -/
def leapYear (y : Nat) : Prop := (y % 4 = 0 ∧ y % 100 ≠ 0) ∨ y % 400 = 0

instance : DecidablePred leapYear := fun y => by unfold leapYear; infer_instance

def daysInMonth (y m : Nat) : Nat :=
  if m = 2 then (if leapYear y then 29 else 28)
  else if m = 4 ∨ m = 6 ∨ m = 9 ∨ m = 11 then 30 else 31

/-- `datetime.strptime(s, "%Y-%m-%d")` on the `\d{4}-\d{2}-\d{2}` strings this
program produces: digits are read positionally and the triple must be a real
calendar date with year at least `MINYEAR = 1` (else `ValueError`, i.e. `none`). -/
def strptimeYMD : List Char → Option (Nat × Nat × Nat)
  | [a1, a2, a3, a4, h1, b1, b2, h2, c1, c2] =>
    if h1 = '-' ∧ h2 = '-' ∧ (a1.isDigit && a2.isDigit && a3.isDigit && a4.isDigit &&
        b1.isDigit && b2.isDigit && c1.isDigit && c2.isDigit) = true then
      let y := ((digitVal a1 * 10 + digitVal a2) * 10 + digitVal a3) * 10 + digitVal a4
      let m := digitVal b1 * 10 + digitVal b2
      let d := digitVal c1 * 10 + digitVal c2
      if 1 ≤ y ∧ 1 ≤ m ∧ m ≤ 12 ∧ 1 ≤ d ∧ d ≤ daysInMonth y m then
        some (y, m, d) else none
    else none
  | _ => none

/-- Day of era at which shifted (March-based) year `y` starts:
`365*y + y/4 - y/100`. -/
def ysOf (y : Nat) : Nat := 365 * y + y / 4 - y / 100

/-- Recover the year of era from a day of era (Hinnant's formula). -/
def evalY (doe : Nat) : Nat :=
  (doe - doe / 1460 + doe / 36524 - doe / 146096) / 365

/-- Shifted year: March-based and moved up 400 years so every quantity is a
`Nat` (400 Gregorian years are exactly 20871 weeks, so the shift leaves
weekdays unchanged). -/
def ysh (y m : Nat) : Nat := if m ≤ 2 then y + 399 else y + 400

/-- Month index in the March-based year: March = 0 ... February = 11. -/
def mpOfM (m : Nat) : Nat := if 3 ≤ m then m - 3 else m + 9

/-- Linear day count of a Gregorian date (days-from-civil). -/
def dayNumber (y m d : Nat) : Nat :=
  ysh y m / 400 * 146097 +
    (ysOf (ysh y m % 400) + ((153 * mpOfM m + 2) / 5 + d - 1))

/-- `date.weekday()`: 0 = Monday ... 6 = Sunday. -/
def weekdayIdx (y m d : Nat) : Nat := (dayNumber y m d + 2) % 7

/-- Day of (March-based) year of a day of era. -/
def doyOf (doe : Nat) : Nat := doe - ysOf (evalY doe)

/-- Month index (March = 0) of a day of era. -/
def mpOf (doe : Nat) : Nat := (5 * doyOf doe + 2) / 153

/-- Day of month of a day of era. -/
def dOf (doe : Nat) : Nat := doyOf doe - (153 * mpOf doe + 2) / 5 + 1

/-- Civil month of a day of era. -/
def mOf (doe : Nat) : Nat := if mpOf doe < 10 then mpOf doe + 3 else mpOf doe - 9

/-- Civil year (un-shifted) of an era and day of era. -/
def yOf (era doe : Nat) : Nat :=
  evalY doe + era * 400 + (if mOf doe ≤ 2 then 1 else 0) - 400

/-- Inverse of `dayNumber` (civil-from-days with the same 400-year shift). -/
def civilFromDayNumber (z : Nat) : Nat × Nat × Nat :=
  (yOf (z / 146097) (z % 146097), mOf (z % 146097), dOf (z % 146097))

/-- `monday.strftime("%Y-%m-%d")`. -/
def formatYMD : Nat × Nat × Nat → List Char
  | (y, m, d) => pad4 y ++ '-' :: pad2 m ++ '-' :: pad2 d

/-- `get_week_start(date_str)`: the Monday of the date's week, obtained as
`date - timedelta(days=date.weekday())`; `none` models the `ValueError` raised
by `strptime` on a non-date. -/
def get_week_start (s : List Char) : Option (List Char) :=
  (strptimeYMD s).map fun ymd =>
    formatYMD (civilFromDayNumber
      (dayNumber ymd.1 ymd.2.1 ymd.2.2 - weekdayIdx ymd.1 ymd.2.1 ymd.2.2))

/-- `groups[key].append(todo)`, adding the key at the end on first use
(Python dicts preserve insertion order). -/
def insertGroup : List (List Char × List Todo) → List Char → Todo →
    List (List Char × List Todo)
  | [], k, t => [(k, [t])]
  | (k', l) :: rest, k, t =>
    if k' = k then (k', l ++ [t]) :: rest else (k', l) :: insertGroup rest k t

def groupWeekGo : List Todo → List (List Char × List Todo) →
    Option (List (List Char × List Todo))
  | [], acc => some acc
  | t :: ts, acc =>
    match get_week_start t.timestamp with
    | none => none
    | some k => groupWeekGo ts (insertGroup acc k t)

/-- `group_by_week(todos)`: the insertion-ordered dict of week groups; `none`
models the uncaught `ValueError` when some timestamp is not a date. -/
def group_by_week (todos : List Todo) : Option (List (List Char × List Todo)) :=
  groupWeekGo todos []

/-- `groups[k]` as an optional lookup in the ordered dict. -/
def lookupKey (k : List Char) : List (List Char × List Todo) → Option (List Todo)
  | [] => none
  | (k', v) :: rest => if k' = k then some v else lookupKey k rest

/-- The tasks whose week starts at `k`, in input order. -/
def weekFilter (k : List Char) (todos : List Todo) : List Todo :=
  todos.filter fun t => decide (get_week_start t.timestamp = some k)

/-- The shape every text loaded back from disk has: non-empty, free of line
breaks, and not ending in whitespace. -/
def goodText (txt : List Char) : Bool :=
  !txt.isEmpty && !txt.contains '\n' && !txt.contains '\r' &&
    (match txt.getLast? with
     | some a => !isPySpace a
     | none => false)

/-- A task that survives a save/load cycle unchanged. -/
def goodTodo (t : Todo) : Bool := isDateFmt t.timestamp && goodText t.text

/-- The filter selecting the tasks with a given timestamp. -/
def tsPred (s : List Char) : Todo → Bool := fun t => decide (t.timestamp = s)

/-- Last day of era belonging to shifted year `y` (year 399 absorbs the era's
leap day). -/
def endOf (y : Nat) : Nat := if y = 399 then 146096 else ysOf (y + 1) - 1

/-- `evalY` recovers `y` at both ends of year `y`. -/
def yearCheck (y : Nat) : Bool := evalY (ysOf y) == y && evalY (endOf y) == y

def yearsCheck : Nat → Bool :=
  Nat.rec true (fun n ih => yearCheck n && ih)

/-- How a group's contents combine: what was already in the dict followed by
the newly filtered tasks. -/
def combineGroup : Option (List Todo) → List Todo → Option (List Todo)
  | none, [] => none
  | none, f => some f
  | some l, f => some (l ++ f)

/-- The task built by one `add` invocation. -/
def taskOf (a : List Char × List Char) : Todo := ⟨false, a.1, a.2⟩

/-- A finite sequence of `add_todo` invocations, each with its own date. -/
def applyAdds (file : Option (List Char))
    (adds : List (List Char × List Char)) : Option (List Char) :=
  adds.foldl (fun f a => some (add_todo f a.1 a.2)) file

theorem lexLe_refl : ∀ l : List Char, lexLe l l = true
  | [] => rfl
  | _ :: as => by simp [lexLe, lexLe_refl as]

theorem lexLe_total : ∀ x y : List Char, lexLe x y = true ∨ lexLe y x = true
  | [], _ => Or.inl rfl
  | _ :: _, [] => Or.inr rfl
  | a :: as, b :: bs => by
    by_cases hab : a = b
    · subst hab; simpa [lexLe] using lexLe_total as bs
    · rcases lt_or_gt_of_ne hab with h | h
      · left; simp [lexLe, hab, h]
      · right; simp [lexLe, Ne.symm hab, h]

theorem lexLe_trans :
    ∀ x y z : List Char, lexLe x y = true → lexLe y z = true → lexLe x z = true
  | [], _, _, _, _ => rfl
  | _ :: _, [], _, h, _ => by simp [lexLe] at h
  | _ :: _, _ :: _, [], _, h => by simp [lexLe] at h
  | a :: as, b :: bs, c :: cs, h1, h2 => by
    by_cases hab : a = b <;> by_cases hbc : b = c
    · subst hab; subst hbc
      simp only [lexLe, if_pos rfl] at h1 h2 ⊢
      exact lexLe_trans as bs cs h1 h2
    · subst hab; simpa [lexLe, hbc] using h2
    · subst hbc; simpa [lexLe, hab] using h1
    · simp only [lexLe, if_neg hab, if_neg hbc, decide_eq_true_eq] at h1 h2
      have hac : a < c := lt_trans h1 h2
      simp [lexLe, ne_of_lt hac, hac]

theorem lexLe_antisymm :
    ∀ x y : List Char, lexLe x y = true → lexLe y x = true → x = y
  | [], [], _, _ => rfl
  | [], _ :: _, _, h => by simp [lexLe] at h
  | _ :: _, [], h, _ => by simp [lexLe] at h
  | a :: as, b :: bs, h1, h2 => by
    by_cases hab : a = b
    · subst hab
      simp only [lexLe, if_pos rfl] at h1 h2
      rw [lexLe_antisymm as bs h1 h2]
    · simp only [lexLe, if_neg hab, if_neg (Ne.symm hab), decide_eq_true_eq] at h1 h2
      exact absurd h2 (lt_asymm h1)

instance : IsTotal Todo tsLe := ⟨fun a b => lexLe_total a.timestamp b.timestamp⟩

instance : IsTrans Todo tsLe :=
  ⟨fun a b c => lexLe_trans a.timestamp b.timestamp c.timestamp⟩

theorem rstrip_append_space (l : List Char) (a : Char) (h : isPySpace a = true) :
    rstrip (l ++ [a]) = rstrip l := by
  simp [rstrip, List.dropWhile_cons, h]

theorem rstrip_eq_self (l : List Char)
    (h : ∀ a, l.getLast? = some a → isPySpace a = false) : rstrip l = l := by
  rcases hrev : l.reverse with _ | ⟨b, r⟩
  · have : l = [] := by simpa using congrArg List.reverse hrev
    simp [this, rstrip]
  · have hb : l.getLast? = some b := by
      rw [List.getLast?_eq_head?_reverse, hrev]; rfl
    have hbs := h b hb
    have : l.reverse.dropWhile isPySpace = l.reverse := by
      rw [hrev, List.dropWhile_cons, hbs]; simp
    simp [rstrip, this]

theorem isDateFmt_shape (ts : List Char) (h : isDateFmt ts = true) :
    ∃ y1 y2 y3 y4 m1 m2 d1 d2,
      ts = [y1, y2, y3, y4, '-', m1, m2, '-', d1, d2] ∧
        (y1.isDigit && y2.isDigit && y3.isDigit && y4.isDigit &&
          m1.isDigit && m2.isDigit && d1.isDigit && d2.isDigit) = true := by
  unfold isDateFmt at h
  split at h
  next y1 y2 y3 y4 h1 m1 m2 h2 d1 d2 =>
    simp only [Bool.and_eq_true, decide_eq_true_eq] at h
    obtain ⟨⟨⟨⟨⟨⟨⟨⟨⟨q1, q2⟩, q3⟩, q4⟩, e1⟩, q5⟩, q6⟩, e2⟩, q7⟩, q8⟩ := h
    subst e1; subst e2
    exact ⟨y1, y2, y3, y4, m1, m2, d1, d2, rfl, by simp [q1, q2, q3, q4, q5, q6, q7, q8]⟩
  next => exact absurd h (by simp)

theorem parseStripped_lineOf (t : Todo) (hts : isDateFmt t.timestamp = true)
    (hne : t.text ≠ []) (hnl : '\n' ∉ t.text) :
    parseStripped (lineOf t) = some t := by
  obtain ⟨y1, y2, y3, y4, m1, m2, d1, d2, hshape, hdig⟩ := isDateFmt_shape _ hts
  rcases t with ⟨chk, ts, txt⟩
  simp only at hshape hne hnl
  subst hshape
  cases chk <;>
    simp [lineOf, parseStripped, parseDate, hdig, hne, hnl]

theorem rstrip_lineOf (t : Todo) (hne : t.text ≠ [])
    (hlast : ∀ a, t.text.getLast? = some a → isPySpace a = false) :
    rstrip (lineOf t) = lineOf t := by
  obtain ⟨b, hb⟩ : ∃ b, t.text.getLast? = some b := by
    rcases htxt : t.text.getLast? with _ | b
    · exact absurd (List.getLast?_eq_none_iff.mp htxt) hne
    · exact ⟨b, rfl⟩
  apply rstrip_eq_self
  intro a ha
  have hsplit : lineOf t =
      ['-', ' ', '[', if t.checked then 'x' else ' ', ']', ' '] ++
        (t.timestamp ++ ([' '] ++ t.text)) := rfl
  rw [hsplit, List.getLast?_append, List.getLast?_append, List.getLast?_append, hb] at ha
  cases ha
  exact hlast b hb

theorem parseLine_lineOf (t : Todo) (hts : isDateFmt t.timestamp = true)
    (hne : t.text ≠ []) (hnl : '\n' ∉ t.text)
    (hlast : ∀ a, t.text.getLast? = some a → isPySpace a = false) :
    parseLine (lineOf t) = some t := by
  rw [parseLine, rstrip_lineOf t hne hlast]
  exact parseStripped_lineOf t hts hne hnl

theorem parseLine_formatLine (t : Todo) (hts : isDateFmt t.timestamp = true)
    (hne : t.text ≠ []) (hnl : '\n' ∉ t.text)
    (hlast : ∀ a, t.text.getLast? = some a → isPySpace a = false) :
    parseLine (formatLine t) = some t := by
  rw [parseLine, formatLine, rstrip_append_space _ _ (by decide),
    rstrip_lineOf t hne hlast]
  exact parseStripped_lineOf t hts hne hnl

theorem goodTodo_spec (t : Todo) (h : goodTodo t = true) :
    isDateFmt t.timestamp = true ∧ t.text ≠ [] ∧ '\n' ∉ t.text ∧ '\r' ∉ t.text ∧
      ∀ a, t.text.getLast? = some a → isPySpace a = false := by
  simp only [goodTodo, goodText, Bool.and_eq_true] at h
  obtain ⟨hts, ⟨⟨hni, hnl⟩, hcr⟩, hw⟩ := h
  refine ⟨hts, by simpa using hni, by simpa using hnl, by simpa using hcr, ?_⟩
  intro a ha
  rw [ha] at hw
  simpa using hw

theorem goodTodo_of (t : Todo) (hts : isDateFmt t.timestamp = true)
    (hne : t.text ≠ []) (hnl : '\n' ∉ t.text) (hcr : '\r' ∉ t.text)
    (hlast : ∀ a, t.text.getLast? = some a → isPySpace a = false) :
    goodTodo t = true := by
  obtain ⟨b, hb⟩ : ∃ b, t.text.getLast? = some b := by
    rcases htxt : t.text.getLast? with _ | b
    · exact absurd (List.getLast?_eq_none_iff.mp htxt) hne
    · exact ⟨b, rfl⟩
  simp only [goodTodo, goodText, Bool.and_eq_true]
  refine ⟨hts, ⟨⟨by simpa using hne, by simpa using hnl⟩, by simpa using hcr⟩, ?_⟩
  rw [hb]
  simpa using hlast b hb

theorem mem_of_mem_rstrip {a : Char} {l : List Char} (h : a ∈ rstrip l) : a ∈ l := by
  rw [rstrip, List.mem_reverse] at h
  exact List.mem_reverse.mp (List.Sublist.mem h (List.dropWhile_sublist _))

theorem head_dropWhile_false {p : Char → Bool} :
    ∀ (l : List Char) (x : Char), (List.dropWhile p l).head? = some x → p x = false
  | [], x, h => by simp [List.dropWhile] at h
  | c :: r, x, h => by
    rw [List.dropWhile_cons] at h
    by_cases hc : p c = true
    · rw [if_pos hc] at h
      exact head_dropWhile_false r x h
    · rw [if_neg hc] at h
      cases h
      exact Bool.eq_false_iff.mpr hc

theorem rstrip_last (l : List Char) (a : Char) (h : (rstrip l).getLast? = some a) :
    isPySpace a = false := by
  rw [rstrip, List.getLast?_eq_head?_reverse, List.reverse_reverse] at h
  exact head_dropWhile_false _ a h

theorem parseDate_eq_some (l ds rest : List Char) (h : parseDate l = some (ds, rest)) :
    l = ds ++ rest ∧ isDateFmt ds = true := by
  unfold parseDate at h
  split at h
  next y1 y2 y3 y4 m1 m2 d1 d2 rest' =>
    split at h
    next hdig =>
      injection h with h
      injection h with h1 h2
      subst h1; subst h2
      simp only [Bool.and_eq_true] at hdig
      exact ⟨rfl, by simp [isDateFmt, hdig]⟩
    next => exact absurd h (by simp)
  next => exact absurd h (by simp)

theorem parseStripped_eq_some (l : List Char) (t : Todo) :
    parseStripped l = some t ↔
      ∃ c, (c = ' ' ∨ c = 'x') ∧
        l = '-' :: ' ' :: '[' :: c :: ']' :: ' ' :: (t.timestamp ++ ' ' :: t.text) ∧
        isDateFmt t.timestamp = true ∧ t.text ≠ [] ∧ '\n' ∉ t.text ∧
        t.checked = (c == 'x') := by
  constructor
  · intro h
    unfold parseStripped at h
    split at h
    next c rest =>
      split at h
      next hc =>
        rcases hpd : parseDate rest with _ | ⟨ds, rest'⟩
        · rw [hpd] at h; exact absurd h (by simp)
        · rw [hpd] at h
          split at h
          next ds2 txt2 hg =>
            injection hg with hg
            injection hg with hg1 hg2
            subst hg1
            subst hg2
            split at h
            next hguard =>
              injection h with h
              obtain ⟨hrest, hfmt⟩ := parseDate_eq_some rest ds _ hpd
              refine ⟨c, hc, ?_, ?_, ?_, ?_, ?_⟩ <;> subst h
              · simp [hrest]
              · exact hfmt
              · exact hguard.1
              · simpa using hguard.2
              · rfl
            next => exact absurd h (by simp)
          next hno => exact absurd h (by simp)
      next => exact absurd h (by simp)
    next => exact absurd h (by simp)
  · rintro ⟨c, hc, hl, hfmt, hne, hnl, hchk⟩
    obtain ⟨y1, y2, y3, y4, m1, m2, d1, d2, hshape, hdig⟩ := isDateFmt_shape _ hfmt
    subst hl
    rcases t with ⟨chk, ts, txt⟩
    simp only at hshape hne hnl hchk
    subst hshape
    subst hchk
    simp [parseStripped, parseDate, hc, hdig, hne, hnl]

theorem parseStripped_good (l : List Char) (t : Todo) (hcr : '\r' ∉ l)
    (hlast : ∀ a, l.getLast? = some a → isPySpace a = false)
    (h : parseStripped l = some t) : goodTodo t = true := by
  rw [parseStripped_eq_some] at h
  obtain ⟨c, hc, hl, hfmt, hne, hnl, hchk⟩ := h
  refine goodTodo_of t hfmt hne hnl ?_ ?_
  · intro hm
    apply hcr
    rw [hl]
    simp [hm]
  · intro a ha
    apply hlast
    rw [hl]
    have hsplit : ('-' :: ' ' :: '[' :: c :: ']' :: ' ' ::
        (t.timestamp ++ ' ' :: t.text)) =
        ['-', ' ', '[', c, ']', ' '] ++ (t.timestamp ++ ([' '] ++ t.text)) := rfl
    rw [hsplit, List.getLast?_append, List.getLast?_append, List.getLast?_append, ha]
    rfl

theorem parseLine_good (line : List Char) (t : Todo) (hcr : '\r' ∉ line)
    (h : parseLine line = some t) : goodTodo t = true :=
  parseStripped_good (rstrip line) t (fun hm => hcr (mem_of_mem_rstrip hm))
    (fun a ha => rstrip_last line a ha) h

theorem fileLines_cons_other (c : Char) (rest : List Char) (h1 : c ≠ '\n')
    (h2 : c ≠ '\r') :
    fileLines (c :: rest) =
      match fileLines rest with
      | [] => [[c]]
      | l :: ls => (c :: l) :: ls := by
  rw [fileLines.eq_def]
  split
  next heq => exact absurd heq (by simp)
  next r heq => injection heq with hc _; exact absurd hc h2
  next r heq => injection heq with hc _; exact absurd hc h1
  next r hno heq => injection heq with hc _; exact absurd hc h2
  next d r hno hn hr heq =>
    injection heq with hc hrest
    subst hc; subst hrest; rfl

theorem fileLines_cr (rest : List Char)
    (hno : ∀ r1, rest = '\n' :: r1 → False) :
    fileLines ('\r' :: rest) = [] :: fileLines rest := by
  rw [fileLines.eq_def]
  split
  next heq => exact absurd heq (by simp)
  next r heq =>
    injection heq with _ hrest
    exact absurd (hno r hrest) id
  next r heq => injection heq with hc _; exact absurd hc (by decide)
  next r hno2 heq => injection heq with _ hrest; subst hrest; rfl
  next d r hno2 hn hr heq =>
    injection heq with hc _
    exact absurd hc.symm hr

theorem fileLines_no_break :
    ∀ (content : List Char), ∀ l ∈ fileLines content, '\n' ∉ l ∧ '\r' ∉ l := by
  intro content
  induction content using fileLines.induct with
  | case1 => simp [fileLines]
  | case2 rest ih =>
    intro l hl
    rw [show fileLines ('\r' :: '\n' :: rest) = [] :: fileLines rest from rfl] at hl
    rcases List.mem_cons.mp hl with rfl | hl
    · simp
    · exact ih l hl
  | case3 rest ih =>
    intro l hl
    rw [show fileLines ('\n' :: rest) = [] :: fileLines rest from rfl] at hl
    rcases List.mem_cons.mp hl with rfl | hl
    · simp
    · exact ih l hl
  | case4 rest hno ih =>
    intro l hl
    rw [fileLines_cr rest (fun r1 h => hno r1 h)] at hl
    rcases List.mem_cons.mp hl with rfl | hl
    · simp
    · exact ih l hl
  | case5 c rest hno hn hr hfl ih =>
    intro l hl
    rw [fileLines_cons_other c rest (fun h => hn h) (fun h => hr h), hfl] at hl
    rcases List.mem_cons.mp hl with rfl | hl
    · constructor <;> intro hm <;> rcases List.mem_cons.mp hm with h | h
      · exact hn h.symm
      · simp at h
      · exact hr h.symm
      · simp at h
    · simp at hl
  | case6 c rest hno hn hr l0 ls hfl ih =>
    intro l hl
    rw [fileLines_cons_other c rest (fun h => hn h) (fun h => hr h), hfl] at hl
    have hl0 := ih l0 (by rw [hfl]; exact List.mem_cons_self _ _)
    rcases List.mem_cons.mp hl with rfl | hl
    · constructor <;> intro hm <;> rcases List.mem_cons.mp hm with h | h
      · exact hn h.symm
      · exact hl0.1 h
      · exact hr h.symm
      · exact hl0.2 h
    · exact ih l (by rw [hfl]; exact List.mem_cons_of_mem _ hl)

theorem fileLines_append (xs rest : List Char) (hnl : '\n' ∉ xs) (hcr : '\r' ∉ xs) :
    fileLines (xs ++ '\n' :: rest) = xs :: fileLines rest := by
  induction xs with
  | nil => rfl
  | cons c cs ih =>
    have hc_n : c ≠ '\n' := fun h => hnl (List.mem_cons.mpr (Or.inl h.symm))
    have hc_r : c ≠ '\r' := fun h => hcr (List.mem_cons.mpr (Or.inl h.symm))
    have hnl' : '\n' ∉ cs := fun h => hnl (List.mem_cons_of_mem _ h)
    have hcr' : '\r' ∉ cs := fun h => hcr (List.mem_cons_of_mem _ h)
    show fileLines (c :: (cs ++ '\n' :: rest)) = (c :: cs) :: fileLines rest
    rw [fileLines_cons_other c _ hc_n hc_r, ih hnl' hcr']

theorem concatLines_cons (t : Todo) (l : List Todo) :
    concatLines (t :: l) = lineOf t ++ '\n' :: concatLines l := by
  simp [concatLines, formatLine, List.append_assoc]

theorem mem_isDateFmt (ts : List Char) (h : isDateFmt ts = true) :
    ∀ a ∈ ts, a.isDigit = true ∨ a = '-' := by
  obtain ⟨y1, y2, y3, y4, m1, m2, d1, d2, hshape, hdig⟩ := isDateFmt_shape _ h
  subst hshape
  simp only [Bool.and_eq_true] at hdig
  obtain ⟨⟨⟨⟨⟨⟨⟨q1, q2⟩, q3⟩, q4⟩, q5⟩, q6⟩, q7⟩, q8⟩ := hdig
  intro a ha
  simp only [List.mem_cons, List.not_mem_nil, or_false] at ha
  rcases ha with rfl | rfl | rfl | rfl | rfl | rfl | rfl | rfl | rfl | rfl
  · exact Or.inl q1
  · exact Or.inl q2
  · exact Or.inl q3
  · exact Or.inl q4
  · exact Or.inr rfl
  · exact Or.inl q5
  · exact Or.inl q6
  · exact Or.inr rfl
  · exact Or.inl q7
  · exact Or.inl q8

theorem lineOf_no_break (t : Todo) (hg : goodTodo t = true) :
    '\n' ∉ lineOf t ∧ '\r' ∉ lineOf t := by
  obtain ⟨hts, hne, hnl, hcr, _⟩ := goodTodo_spec t hg
  have hts' := mem_isDateFmt _ hts
  constructor <;> intro hm <;>
    simp only [lineOf, List.mem_cons, List.mem_append] at hm
  · rcases hm with h | h | h | h | h | h | hm2
    · exact absurd h (by decide)
    · exact absurd h (by decide)
    · exact absurd h (by decide)
    · rcases Bool.eq_false_or_eq_true t.checked with hb | hb <;> simp [hb] at h
    · exact absurd h (by decide)
    · exact absurd h (by decide)
    · rcases hm2 with h | h
      · rcases hts' '\n' h with hd | hd
        · exact absurd hd (by decide)
        · exact absurd hd (by decide)
      · rcases h with h2 | h2
        · exact absurd h2 (by decide)
        · exact hnl h2
  · rcases hm with h | h | h | h | h | h | hm2
    · exact absurd h (by decide)
    · exact absurd h (by decide)
    · exact absurd h (by decide)
    · rcases Bool.eq_false_or_eq_true t.checked with hb | hb <;> simp [hb] at h
    · exact absurd h (by decide)
    · exact absurd h (by decide)
    · rcases hm2 with h | h
      · rcases hts' '\r' h with hd | hd
        · exact absurd hd (by decide)
        · exact absurd hd (by decide)
      · rcases h with h2 | h2
        · exact absurd h2 (by decide)
        · exact hcr h2

theorem fileLines_concatLines :
    ∀ (l : List Todo), (∀ t ∈ l, goodTodo t = true) →
      fileLines (concatLines l) = l.map lineOf
  | [], _ => rfl
  | t :: rest, h => by
    have hb := lineOf_no_break t (h t (List.mem_cons_self _ _))
    rw [concatLines_cons, fileLines_append _ _ hb.1 hb.2,
      fileLines_concatLines rest (fun x hx => h x (List.mem_cons_of_mem _ hx))]
    rfl

theorem filterMap_parseLine_lineOf :
    ∀ (l : List Todo), (∀ t ∈ l, goodTodo t = true) →
      List.filterMap parseLine (l.map lineOf) = l
  | [], _ => rfl
  | t :: rest, h => by
    obtain ⟨hts, hne, hnl, _, hlast⟩ := goodTodo_spec t (h t (List.mem_cons_self _ _))
    rw [List.map_cons, List.filterMap_cons, parseLine_lineOf t hts hne hnl hlast,
      filterMap_parseLine_lineOf rest (fun x hx => h x (List.mem_cons_of_mem _ hx))]

theorem load_save (l : List Todo) (h : ∀ t ∈ l, goodTodo t = true) :
    load_todos (some (save_todos l)) =
      sortTs (uncheckedOf l) ++ checkedOf l := by
  have hall : ∀ t ∈ sortTs (uncheckedOf l) ++ checkedOf l, goodTodo t = true := by
    intro t ht
    rcases List.mem_append.mp ht with ht | ht
    · exact h t (List.mem_of_mem_filter
        ((List.perm_insertionSort tsLe _).mem_iff.mp ht))
    · exact h t (List.mem_of_mem_filter ht)
  show List.filterMap parseLine (fileLines (save_todos l)) = _
  rw [save_todos, fileLines_concatLines _ hall, filterMap_parseLine_lineOf _ hall]

theorem load_todos_good (f : Option (List Char)) :
    ∀ t ∈ load_todos f, goodTodo t = true := by
  intro t ht
  rcases f with _ | content
  · simp [load_todos] at ht
  · obtain ⟨line, hline, hparse⟩ := List.mem_filterMap.mp ht
    exact parseLine_good line t (fileLines_no_break content line hline).2 hparse

theorem filter_orderedInsert_ne (a : Todo) (s : List Char) (hne : ¬ a.timestamp = s)
    (l : List Todo) :
    List.filter (tsPred s) (List.orderedInsert tsLe a l) = List.filter (tsPred s) l := by
  induction l with
  | nil => simp [tsPred, hne]
  | cons b bs ih =>
    by_cases hr : tsLe a b
    · simp [List.orderedInsert, hr, List.filter_cons, tsPred, hne]
    · simp only [List.orderedInsert, if_neg hr, List.filter_cons]
      rw [ih]

theorem filter_orderedInsert_eq (a : Todo) (s : List Char) (heq : a.timestamp = s)
    (l : List Todo) :
    List.filter (tsPred s) (List.orderedInsert tsLe a l) =
      a :: List.filter (tsPred s) l := by
  induction l with
  | nil => simp [tsPred, heq]
  | cons b bs ih =>
    by_cases hr : tsLe a b
    · simp [List.orderedInsert, hr, List.filter_cons, tsPred, heq]
    · have hbs : ¬ b.timestamp = s := by
        intro hb
        apply hr
        unfold tsLe
        rw [heq, hb]
        exact lexLe_refl s
      simp only [List.orderedInsert, if_neg hr, List.filter_cons]
      rw [ih]
      simp [tsPred, hbs]

theorem filter_sortTs (s : List Char) :
    ∀ l : List Todo, List.filter (tsPred s) (sortTs l) = List.filter (tsPred s) l
  | [] => rfl
  | a :: l => by
    show List.filter _ (List.orderedInsert tsLe a (List.insertionSort tsLe l)) = _
    by_cases ha : a.timestamp = s
    · rw [filter_orderedInsert_eq a s ha _,
        show List.insertionSort tsLe l = sortTs l from rfl, filter_sortTs s l,
        List.filter_cons_of_pos (by simp [tsPred, ha])]
    · rw [filter_orderedInsert_ne a s ha _,
        show List.insertionSort tsLe l = sortTs l from rfl, filter_sortTs s l,
        List.filter_cons_of_neg (by simp [tsPred, ha])]

theorem sorted_filter_unique :
    ∀ (l1 l2 : List Todo), List.Sorted tsLe l1 → List.Sorted tsLe l2 →
      (∀ s, List.filter (tsPred s) l1 = List.filter (tsPred s) l2) → l1 = l2
  | [], [], _, _, _ => rfl
  | [], b :: t2, _, _, h => by
    have hb := h b.timestamp
    rw [List.filter_cons_of_pos (by simp [tsPred])] at hb
    exact absurd hb (by simp)
  | a :: t1, [], _, _, h => by
    have ha := h a.timestamp
    rw [List.filter_cons_of_pos (by simp [tsPred])] at ha
    exact absurd ha (by simp)
  | a :: t1, b :: t2, h1, h2, h => by
    have hb1 : b ∈ a :: t1 := by
      have hb := h b.timestamp
      rw [List.filter_cons_of_pos (a := b) (by simp [tsPred])] at hb
      exact List.mem_of_mem_filter (hb ▸ List.mem_cons_self b _)
    have ha2 : a ∈ b :: t2 := by
      have ha := h a.timestamp
      rw [List.filter_cons_of_pos (a := a) (by simp [tsPred])] at ha
      exact List.mem_of_mem_filter (ha ▸ List.mem_cons_self a _)
    have hab : tsLe a b := by
      rcases List.mem_cons.mp hb1 with rfl | hm
      · exact lexLe_refl _
      · exact List.rel_of_sorted_cons h1 b hm
    have hba : tsLe b a := by
      rcases List.mem_cons.mp ha2 with rfl | hm
      · exact lexLe_refl _
      · exact List.rel_of_sorted_cons h2 a hm
    have hts : a.timestamp = b.timestamp := lexLe_antisymm _ _ hab hba
    have hhead := h a.timestamp
    rw [List.filter_cons_of_pos (a := a) (by simp [tsPred]),
      List.filter_cons_of_pos (a := b) (by simp [tsPred, hts])] at hhead
    injection hhead with hab2 htail
    rw [hab2]
    congr 1
    apply sorted_filter_unique t1 t2 h1.of_cons h2.of_cons
    intro s
    by_cases hs : a.timestamp = s
    · rw [← hs]; exact htail
    · have hstep := h s
      rw [List.filter_cons_of_neg (a := a) (by simp [tsPred, hs]),
        List.filter_cons_of_neg (a := b) (by simp [tsPred, ← hts, hs])] at hstep
      exact hstep

theorem sortTs_sorted (l : List Todo) : List.Sorted tsLe (sortTs l) :=
  List.sorted_insertionSort tsLe l

theorem sortTs_perm (l : List Todo) : (sortTs l).Perm l :=
  List.perm_insertionSort tsLe l

theorem sortTs_append_sortTs (l m : List Todo) :
    sortTs (sortTs l ++ m) = sortTs (l ++ m) := by
  apply sorted_filter_unique _ _ (sortTs_sorted _) (sortTs_sorted _)
  intro s
  rw [filter_sortTs, filter_sortTs, List.filter_append, List.filter_append,
    filter_sortTs]

set_option maxRecDepth 200000 in
theorem yearsCheck_true : yearsCheck 400 = true := by decide

theorem yearsCheck_sound :
    ∀ n, yearsCheck n = true → ∀ y, y < n → yearCheck y = true := by
  intro n
  induction n with
  | zero => intro _ y hy; omega
  | succ n ih =>
    intro h y hy
    rw [show yearsCheck (n + 1) = (yearCheck n && yearsCheck n) from rfl,
      Bool.and_eq_true] at h
    by_cases hyn : y = n
    · subst hyn; exact h.1
    · exact ih h.2 y (by omega)

theorem bracket : ∀ doe, doe < 146097 → ∃ y, y ≤ 399 ∧ ysOf y ≤ doe ∧ doe ≤ endOf y := by
  intro doe
  induction doe with
  | zero => exact fun _ => ⟨0, by decide⟩
  | succ doe ih =>
    intro hlt
    obtain ⟨y, hy, h1, h2⟩ := ih (by omega)
    by_cases hend : doe + 1 ≤ endOf y
    · exact ⟨y, hy, by omega, hend⟩
    · have hdoe : doe = endOf y := by omega
      have hy399 : y ≠ 399 := by
        intro h399
        subst h399
        rw [endOf] at hdoe
        simp at hdoe
        omega
      have hEy : endOf y = ysOf (y + 1) - 1 := by rw [endOf, if_neg hy399]
      refine ⟨y + 1, by omega, ?_, ?_⟩
      · rw [hEy] at hdoe
        unfold ysOf at hdoe ⊢
        omega
      · by_cases h399 : y + 1 = 399
        · rw [endOf, if_pos h399]
          omega
        · rw [endOf, if_neg h399]
          rw [hEy] at hdoe
          unfold ysOf at hdoe ⊢
          omega

theorem evalY_mono (a b : Nat) (hab : a ≤ b) (hb : b ≤ 146096) :
    evalY a ≤ evalY b := by
  unfold evalY
  have h : a - a / 1460 + a / 36524 - a / 146096 ≤
      b - b / 1460 + b / 36524 - b / 146096 := by omega
  exact Nat.div_le_div_right h

theorem evalY_eq (doe : Nat) (h : doe < 146097) :
    ∃ y, evalY doe = y ∧ y ≤ 399 ∧ ysOf y ≤ doe ∧ doe - ysOf y ≤ 365 ∧
      (doe - ysOf y = 365 →
        (y + 1) % 4 = 0 ∧ ((y + 1) % 100 ≠ 0 ∨ (y + 1) % 400 = 0)) := by
  obtain ⟨y, hy, h1, h2⟩ := bracket doe h
  have hcheck := yearsCheck_sound 400 yearsCheck_true y (by omega)
  rw [yearCheck, Bool.and_eq_true] at hcheck
  have hys : evalY (ysOf y) = y := by simpa using hcheck.1
  have hend : evalY (endOf y) = y := by simpa using hcheck.2
  have hEndBound : endOf y ≤ 146096 := by
    rw [endOf]
    split
    · omega
    · unfold ysOf
      omega
  have hle1 : y ≤ evalY doe := hys ▸ evalY_mono (ysOf y) doe h1 (by omega)
  have hle2 : evalY doe ≤ y := hend ▸ evalY_mono doe (endOf y) h2 hEndBound
  have hlen : endOf y ≤ ysOf y + 365 := by
    rw [endOf]
    split
    next h399 => subst h399; unfold ysOf; omega
    next h399 => unfold ysOf; omega
  refine ⟨y, by omega, hy, h1, by omega, ?_⟩
  intro h365
  have hfull : ysOf y + 365 ≤ endOf y := by omega
  by_cases hy399 : y = 399
  · subst hy399; decide
  · rw [endOf, if_neg hy399] at hfull
    unfold ysOf at hfull
    omega

theorem civil_core_arith (era yoe doy mp d0 m0 y0 : Nat)
    (hera1 : 1 ≤ era) (hera2 : era ≤ 25) (hyoe : yoe ≤ 399)
    (hdoy : doy ≤ 365)
    (hleap : doy = 365 →
      (yoe + 1) % 4 = 0 ∧ ((yoe + 1) % 100 ≠ 0 ∨ (yoe + 1) % 400 = 0))
    (hmp : mp = (5 * doy + 2) / 153)
    (hd : d0 = doy - (153 * mp + 2) / 5 + 1)
    (hm : m0 = if mp < 10 then mp + 3 else mp - 9)
    (hy : y0 = yoe + era * 400 + (if m0 ≤ 2 then 1 else 0) - 400)
    (hz1 : 146403 ≤ era * 146097 + (ysOf yoe + doy))
    (hz2 : era * 146097 + (ysOf yoe + doy) ≤ 3798461) :
    1 ≤ y0 ∧ y0 ≤ 9999 ∧ 1 ≤ m0 ∧ m0 ≤ 12 ∧ 1 ≤ d0 ∧
      d0 ≤ daysInMonth y0 m0 ∧
      dayNumber y0 m0 d0 = era * 146097 + (ysOf yoe + doy) := by
  have hmp11 : mp ≤ 11 := by subst hmp; omega
  interval_cases mp <;>
    (norm_num at hm
     subst hm
     norm_num at hy
     simp only [dayNumber, ysh, mpOfM, ysOf, daysInMonth, leapYear] at hd hz1 hz2 ⊢
     norm_num at hd hz1 hz2 ⊢) <;>
    first
    | (have hmod : y0 % 400 = yoe := by omega
       have hdiv : y0 / 400 = era - 1 := by omega
       rw [hmod, hdiv]
       omega)
    | (have hmod : (y0 + 399) % 400 = yoe := by omega
       have hdiv : (y0 + 399) / 400 = era := by omega
       rw [hmod, hdiv]
       first
       | omega
       | (split <;> omega))

theorem civil_valid (era doe : Nat) (hera1 : 1 ≤ era) (hera2 : era ≤ 25)
    (hdoe : doe < 146097) (hz1 : 146403 ≤ era * 146097 + doe)
    (hz2 : era * 146097 + doe ≤ 3798461) :
    1 ≤ yOf era doe ∧ yOf era doe ≤ 9999 ∧ 1 ≤ mOf doe ∧ mOf doe ≤ 12 ∧
    1 ≤ dOf doe ∧ dOf doe ≤ daysInMonth (yOf era doe) (mOf doe) ∧
    dayNumber (yOf era doe) (mOf doe) (dOf doe) = era * 146097 + doe := by
  obtain ⟨yoe, hyoe_eq, hyoe399, hys_le, hdoy_le, hleap⟩ := evalY_eq doe hdoe
  have hdoy_def : doyOf doe = doe - ysOf yoe := by rw [doyOf, hyoe_eq]
  have hsum : era * 146097 + (ysOf yoe + doyOf doe) = era * 146097 + doe := by
    rw [hdoy_def]
    omega
  have hmain := civil_core_arith era yoe (doyOf doe) (mpOf doe) (dOf doe)
    (mOf doe) (yOf era doe) hera1 hera2 hyoe399
    (by rw [hdoy_def]; exact hdoy_le)
    (by rw [hdoy_def]; exact hleap)
    rfl rfl rfl
    (by rw [yOf, hyoe_eq])
    (by rw [hsum]; exact hz1)
    (by rw [hsum]; exact hz2)
  rw [hsum] at hmain
  exact hmain

theorem dayNumber_bounds (y m d : Nat) (hy1 : 1 ≤ y) (hy2 : y ≤ 9999)
    (hm1 : 1 ≤ m) (hm2 : m ≤ 12) (hd1 : 1 ≤ d) (hd2 : d ≤ daysInMonth y m) :
    146403 ≤ dayNumber y m d ∧ dayNumber y m d ≤ 3798461 := by
  interval_cases m <;>
    (simp only [dayNumber, ysh, mpOfM, ysOf, daysInMonth, leapYear] at hd2 ⊢
     norm_num at hd2 ⊢) <;>
    first
    | omega
    | (split at hd2 <;> omega)

theorem daysInMonth_le (y m : Nat) : daysInMonth y m ≤ 31 := by
  unfold daysInMonth
  split
  · split <;> omega
  · split <;> omega

theorem digitVal_le (c : Char) (h : c.isDigit = true) :
    digitVal c ≤ 9 ∧ 48 ≤ c.toNat := by
  unfold Char.isDigit at h
  rw [Bool.and_eq_true, decide_eq_true_eq, decide_eq_true_eq] at h
  obtain ⟨h1, h2⟩ := h
  have g1 : 48 ≤ c.toNat := h1
  have g2 : c.toNat ≤ 57 := h2
  unfold digitVal
  omega

theorem digitChar_spec (n : Nat) (h : n < 10) :
    digitVal (digitChar n) = n ∧ (digitChar n).isDigit = true := by
  interval_cases n <;> exact ⟨by decide, by decide⟩

theorem strptime_format (y m d : Nat) (hy1 : 1 ≤ y) (hy2 : y ≤ 9999)
    (hm1 : 1 ≤ m) (hm2 : m ≤ 12) (hd1 : 1 ≤ d) (hd2 : d ≤ daysInMonth y m) :
    strptimeYMD (formatYMD (y, m, d)) = some (y, m, d) := by
  have e1 := digitChar_spec (y / 1000 % 10) (Nat.mod_lt _ (by norm_num))
  have e2 := digitChar_spec (y / 100 % 10) (Nat.mod_lt _ (by norm_num))
  have e3 := digitChar_spec (y / 10 % 10) (Nat.mod_lt _ (by norm_num))
  have e4 := digitChar_spec (y % 10) (Nat.mod_lt _ (by norm_num))
  have f1 := digitChar_spec (m / 10 % 10) (Nat.mod_lt _ (by norm_num))
  have f2 := digitChar_spec (m % 10) (Nat.mod_lt _ (by norm_num))
  have g1 := digitChar_spec (d / 10 % 10) (Nat.mod_lt _ (by norm_num))
  have g2 := digitChar_spec (d % 10) (Nat.mod_lt _ (by norm_num))
  show strptimeYMD [digitChar (y / 1000 % 10), digitChar (y / 100 % 10),
    digitChar (y / 10 % 10), digitChar (y % 10), '-', digitChar (m / 10 % 10),
    digitChar (m % 10), '-', digitChar (d / 10 % 10), digitChar (d % 10)] =
      some (y, m, d)
  rw [strptimeYMD]
  rw [if_pos ⟨rfl, rfl, by
    simp only [Bool.and_eq_true]
    exact ⟨⟨⟨⟨⟨⟨⟨e1.2, e2.2⟩, e3.2⟩, e4.2⟩, f1.2⟩, f2.2⟩, g1.2⟩, g2.2⟩⟩]
  simp only [e1.1, e2.1, e3.1, e4.1, f1.1, f2.1, g1.1, g2.1]
  have hY : ((y / 1000 % 10 * 10 + y / 100 % 10) * 10 + y / 10 % 10) * 10 + y % 10 = y := by
    omega
  have hM : m / 10 % 10 * 10 + m % 10 = m := by omega
  have hD31 : d ≤ 31 := le_trans hd2 (daysInMonth_le y m)
  have hD : d / 10 % 10 * 10 + d % 10 = d := by omega
  rw [hY, hM, hD]
  rw [if_pos ⟨hy1, hm1, hm2, hd1, hd2⟩]

theorem strptimeYMD_valid (s : List Char) (y m d : Nat)
    (hp : strptimeYMD s = some (y, m, d)) :
    1 ≤ y ∧ y ≤ 9999 ∧ 1 ≤ m ∧ m ≤ 12 ∧ 1 ≤ d ∧ d ≤ daysInMonth y m := by
  unfold strptimeYMD at hp
  split at hp
  next a1 a2 a3 a4 h1 b1 b2 h2 c1 c2 =>
    split at hp
    next hguard =>
      simp only [] at hp
      split at hp
      next hrange =>
        injection hp with hp
        injection hp with hy hmd
        injection hmd with hm hd
        obtain ⟨-, -, hdig⟩ := hguard
        simp only [Bool.and_eq_true] at hdig
        obtain ⟨⟨⟨⟨⟨⟨⟨q1, q2⟩, q3⟩, q4⟩, q5⟩, q6⟩, q7⟩, q8⟩ := hdig
        have d1 := digitVal_le a1 q1
        have d2 := digitVal_le a2 q2
        have d3 := digitVal_le a3 q3
        have d4 := digitVal_le a4 q4
        subst hy; subst hm; subst hd
        obtain ⟨r1, r2, r3, r4, r5⟩ := hrange
        exact ⟨r1, by omega, r2, r3, r4, r5⟩
      next => exact absurd hp (by simp)
    next => exact absurd hp (by simp)
  next => exact absurd hp (by simp)

theorem get_week_start_spec (s : List Char) (y m d : Nat)
    (hp : strptimeYMD s = some (y, m, d)) :
    ∃ k y2 m2 d2, get_week_start s = some k ∧ strptimeYMD k = some (y2, m2, d2) ∧
      weekdayIdx y2 m2 d2 = 0 ∧
      dayNumber y2 m2 d2 + weekdayIdx y m d = dayNumber y m d ∧
      weekdayIdx y m d ≤ 6 := by
  obtain ⟨v1, v2, v3, v4, v5, v6⟩ := strptimeYMD_valid s y m d hp
  obtain ⟨hb1, hb2⟩ := dayNumber_bounds y m d v1 v2 v3 v4 v5 v6
  have hwd : weekdayIdx y m d = (dayNumber y m d + 2) % 7 := rfl
  set dn := dayNumber y m d with hdn
  set z := dn - weekdayIdx y m d with hz
  have hz1 : 146403 ≤ z := by
    rw [hz, hwd]
    omega
  have hz2 : z ≤ 3798461 := by omega
  have hera1 : 1 ≤ z / 146097 := by omega
  have hera2 : z / 146097 ≤ 25 := by omega
  have hdoe : z % 146097 < 146097 := Nat.mod_lt _ (by norm_num)
  have hzsum : z / 146097 * 146097 + z % 146097 = z := by omega
  obtain ⟨w1, w2, w3, w4, w5, w6, w7⟩ :=
    civil_valid (z / 146097) (z % 146097) hera1 hera2 hdoe
      (by rw [hzsum]; exact hz1) (by rw [hzsum]; exact hz2)
  rw [hzsum] at w7
  have hgws : get_week_start s =
      some (formatYMD (yOf (z / 146097) (z % 146097), mOf (z % 146097),
        dOf (z % 146097))) := by
    rw [get_week_start, hp]
    rfl
  refine ⟨_, yOf (z / 146097) (z % 146097), mOf (z % 146097), dOf (z % 146097),
    hgws, strptime_format _ _ _ w1 w2 w3 w4 w5 w6, ?_, ?_, ?_⟩
  · rw [weekdayIdx, w7, hz, hwd]
    omega
  · rw [w7, hz, hwd]
    omega
  · rw [hwd]
    omega

theorem lookup_insertGroup :
    ∀ (acc : List (List Char × List Todo)) (k0 k : List Char) (t : Todo),
      lookupKey k (insertGroup acc k0 t) =
        if k = k0 then some ((lookupKey k acc).getD [] ++ [t])
        else lookupKey k acc
  | [], k0, k, t => by
    by_cases hk : k = k0
    · subst hk
      simp [insertGroup, lookupKey]
    · have hk2 : ¬ k0 = k := fun h => hk h.symm
      simp [insertGroup, lookupKey, hk, hk2]
  | (k', v) :: rest, k0, k, t => by
    by_cases h1 : k' = k0
    · subst h1
      by_cases h2 : k = k'
      · subst h2
        simp [insertGroup, lookupKey]
      · have h22 : ¬ k' = k := fun h => h2 h.symm
        simp [insertGroup, lookupKey, h2, h22]
    · by_cases h2 : k' = k
      · subst h2
        rw [show insertGroup ((k', v) :: rest) k0 t =
            (k', v) :: insertGroup rest k0 t from by simp [insertGroup, h1]]
        rw [show lookupKey k' ((k', v) :: insertGroup rest k0 t) = some v from by
          simp [lookupKey]]
        rw [show lookupKey k' ((k', v) :: rest) = some v from by simp [lookupKey]]
        rw [if_neg (fun h : k' = k0 => h1 h)]
      · rw [show insertGroup ((k', v) :: rest) k0 t =
            (k', v) :: insertGroup rest k0 t from by simp [insertGroup, h1]]
        rw [show lookupKey k ((k', v) :: rest) = lookupKey k rest from by
          simp [lookupKey, h2]]
        rw [show lookupKey k ((k', v) :: insertGroup rest k0 t) =
            lookupKey k (insertGroup rest k0 t) from by simp [lookupKey, h2]]
        exact lookup_insertGroup rest k0 k t

theorem groupWeekGo_spec :
    ∀ (todos : List Todo) (acc : List (List Char × List Todo)),
      (∀ t ∈ todos, (get_week_start t.timestamp).isSome = true) →
      ∃ gs, groupWeekGo todos acc = some gs ∧
        ∀ k, lookupKey k gs = combineGroup (lookupKey k acc) (weekFilter k todos)
  | [], acc, _ => ⟨acc, rfl, fun k => by
      cases h : lookupKey k acc <;> simp [combineGroup, weekFilter, h]⟩
  | t :: ts, acc, hv => by
    obtain ⟨kt, hkt⟩ := Option.isSome_iff_exists.mp (hv t (List.mem_cons_self _ _))
    obtain ⟨gs, hgs, hlook⟩ := groupWeekGo_spec ts (insertGroup acc kt t)
      (fun x hx => hv x (List.mem_cons_of_mem _ hx))
    refine ⟨gs, ?_, ?_⟩
    · rw [groupWeekGo, hkt]
      exact hgs
    · intro k
      rw [hlook k, lookup_insertGroup]
      by_cases hk : k = kt
    --
      · subst hk
        rw [show weekFilter k (t :: ts) = t :: weekFilter k ts from by
          rw [weekFilter, List.filter_cons_of_pos (by simp [hkt])]; rfl]
        rw [if_pos rfl]
        cases hacc : lookupKey k acc <;>
          simp [combineGroup, weekFilter]
      · rw [show weekFilter k (t :: ts) = weekFilter k ts from by
          rw [weekFilter, List.filter_cons_of_neg (by simp [hkt]; exact fun h => hk h.symm)]; rfl]
        rw [if_neg hk]

theorem partition_filter (u c : List Todo) (hu : ∀ t ∈ u, t.checked = false)
    (hc : ∀ t ∈ c, t.checked = true) :
    uncheckedOf (u ++ c) = u ∧ checkedOf (u ++ c) = c := by
  unfold uncheckedOf checkedOf
  rw [List.filter_append, List.filter_append]
  constructor
  · rw [List.filter_eq_self.mpr (fun a ha => by simp [hu a ha]),
      List.filter_eq_nil_iff.mpr (fun a ha => by simp [hc a ha]),
      List.append_nil]
  · rw [List.filter_eq_nil_iff.mpr (fun a ha => by simp [hu a ha]),
      List.filter_eq_self.mpr (fun a ha => by simp [hc a ha]),
      List.nil_append]

theorem mem_sortTs_unchecked (l : List Todo) (hu : ∀ t ∈ l, t.checked = false) :
    ∀ t ∈ sortTs l, t.checked = false :=
  fun t ht => hu t ((sortTs_perm l).mem_iff.mp ht)

theorem load_save_partition (l : List Todo) (h : ∀ t ∈ l, goodTodo t = true) :
    load_todos (some (save_todos l)) = sortTs (uncheckedOf l) ++ checkedOf l ∧
    uncheckedOf (load_todos (some (save_todos l))) = sortTs (uncheckedOf l) ∧
    checkedOf (load_todos (some (save_todos l))) = checkedOf l := by
  have hls := load_save l h
  have hpart := partition_filter (sortTs (uncheckedOf l)) (checkedOf l)
    (mem_sortTs_unchecked _ (fun t ht => by
      have := List.mem_filter.mp ht
      simpa using this.2))
    (fun t ht => (List.mem_filter.mp ht).2)
  exact ⟨hls, by rw [hls]; exact hpart.1, by rw [hls]; exact hpart.2⟩

theorem goodTodo_taskOf (a : List Char × List Char) (h1 : isDateFmt a.1 = true)
    (h2 : goodText a.2 = true) : goodTodo (taskOf a) = true := by
  unfold goodTodo taskOf
  simp [h1, h2]

theorem applyAdds_append (f : Option (List Char))
    (adds : List (List Char × List Char)) (a : List Char × List Char) :
    applyAdds f (adds ++ [a]) = some (add_todo (applyAdds f adds) a.1 a.2) := by
  unfold applyAdds
  rw [List.foldl_append]
  rfl

theorem uncheckedOf_append (a b : List Todo) :
    uncheckedOf (a ++ b) = uncheckedOf a ++ uncheckedOf b :=
  List.filter_append _ _

theorem checkedOf_append (a b : List Todo) :
    checkedOf (a ++ b) = checkedOf a ++ checkedOf b :=
  List.filter_append _ _

theorem uncheckedOf_all (l : List Todo) (h : ∀ t ∈ l, t.checked = false) :
    uncheckedOf l = l ∧ checkedOf l = [] :=
  ⟨List.filter_eq_self.mpr (fun t ht => by simp [h t ht]),
   List.filter_eq_nil_iff.mpr (fun t ht => by simp [h t ht])⟩

theorem checkedOf_all (l : List Todo) (h : ∀ t ∈ l, t.checked = true) :
    uncheckedOf l = [] ∧ checkedOf l = l :=
  ⟨List.filter_eq_nil_iff.mpr (fun t ht => by simp [h t ht]),
   List.filter_eq_self.mpr (fun t ht => h t ht)⟩

theorem mem_uncheckedOf_checked (l : List Todo) :
    ∀ t ∈ uncheckedOf l, t.checked = false :=
  fun t ht => by simpa using (List.mem_filter.mp ht).2

theorem mem_checkedOf_checked (l : List Todo) :
    ∀ t ∈ checkedOf l, t.checked = true :=
  fun _ ht => (List.mem_filter.mp ht).2

theorem applyAdds_load_core (f : Option (List Char)) :
    ∀ (adds : List (List Char × List Char)), adds ≠ [] →
      (∀ x ∈ adds, isDateFmt x.1 = true ∧ goodText x.2 = true) →
      ∃ F, applyAdds f adds = some F ∧
        load_todos (some F) =
          sortTs (uncheckedOf (load_todos f) ++ List.map taskOf adds) ++
            checkedOf (load_todos f) := by
  intro adds
  induction adds using List.reverseRecOn with
  | nil => intro h; exact absurd rfl h
  | append_singleton as a ih =>
    intro _ hgood
    have hga : goodTodo (taskOf a) = true :=
      goodTodo_taskOf a (hgood a (by simp)).1 (hgood a (by simp)).2
    by_cases has : as = []
    · subst has
      refine ⟨_, applyAdds_append f [] a, ?_⟩
      rw [show applyAdds f [] = f from rfl, add_todo,
        show ({ checked := false, timestamp := a.1, text := a.2 } : Todo) =
          taskOf a from rfl]
      have hgoodall : ∀ t ∈ load_todos f ++ [taskOf a], goodTodo t = true := by
        intro t ht
        rcases List.mem_append.mp ht with ht | ht
        · exact load_todos_good f t ht
        · simp at ht
          subst ht
          exact hga
      obtain ⟨hls, -, -⟩ := load_save_partition _ hgoodall
      rw [hls, uncheckedOf_append, checkedOf_append,
        (uncheckedOf_all [taskOf a] (by intro t ht; simp at ht; subst ht; rfl)).1,
        (uncheckedOf_all [taskOf a] (by intro t ht; simp at ht; subst ht; rfl)).2]
      simp
    · obtain ⟨F1, hF1, hload1⟩ := ih has
        (fun x hx => hgood x (List.mem_append.mpr (Or.inl hx)))
      rw [applyAdds_append, hF1]
      refine ⟨_, rfl, ?_⟩
      rw [add_todo, hload1,
        show ({ checked := false, timestamp := a.1, text := a.2 } : Todo) =
          taskOf a from rfl]
      have hTu : ∀ t ∈ uncheckedOf (load_todos f) ++ List.map taskOf as,
          t.checked = false := by
        intro t ht
        rcases List.mem_append.mp ht with ht | ht
        · exact mem_uncheckedOf_checked _ t ht
        · obtain ⟨x, -, hx⟩ := List.mem_map.mp ht
          rw [← hx]
          rfl
      have hsortu : ∀ t ∈ sortTs (uncheckedOf (load_todos f) ++ List.map taskOf as),
          t.checked = false := mem_sortTs_unchecked _ hTu
      have hgoodall : ∀ t ∈ (sortTs (uncheckedOf (load_todos f) ++
          List.map taskOf as) ++ checkedOf (load_todos f)) ++ [taskOf a],
          goodTodo t = true := by
        intro t ht
        rcases List.mem_append.mp ht with ht | ht
        · rcases List.mem_append.mp ht with ht | ht
          · have hmem := (sortTs_perm _).mem_iff.mp ht
            rcases List.mem_append.mp hmem with ht2 | ht2
            · exact load_todos_good f t (List.mem_of_mem_filter ht2)
            · obtain ⟨x, hx1, hx2⟩ := List.mem_map.mp ht2
              rw [← hx2]
              exact goodTodo_taskOf x
                (hgood x (List.mem_append.mpr (Or.inl hx1))).1
                (hgood x (List.mem_append.mpr (Or.inl hx1))).2
          · exact load_todos_good f t (List.mem_of_mem_filter ht)
        · simp at ht
          subst ht
          exact hga
      obtain ⟨hls, -, -⟩ := load_save_partition _ hgoodall
      rw [hls, uncheckedOf_append, uncheckedOf_append, checkedOf_append,
        checkedOf_append,
        (uncheckedOf_all _ hsortu).1,
        (uncheckedOf_all _ hsortu).2,
        (uncheckedOf_all [taskOf a] (by intro t ht; simp at ht; subst ht; rfl)).1,
        (uncheckedOf_all [taskOf a] (by intro t ht; simp at ht; subst ht; rfl)).2,
        (checkedOf_all _ (mem_checkedOf_checked (load_todos f))).1,
        (checkedOf_all _ (mem_checkedOf_checked (load_todos f))).2]
      rw [List.append_nil, List.nil_append, List.append_nil]
      rw [show sortTs (uncheckedOf (load_todos f) ++ List.map taskOf as) ++ [taskOf a] =
        sortTs (uncheckedOf (load_todos f) ++ List.map taskOf as) ++ [taskOf a] from rfl]
      rw [sortTs_append_sortTs]
      rw [List.map_append]
      simp [List.append_assoc]

/-- C1 counterexample: the claim quantifies over every task whose text has no
newline, but a task with an empty text does not round trip: `(.+)` rejects
the empty text group and the rendered line parses back to nothing. -/
theorem c1_roundtrip_counterexample :
    parseLine (formatLine ⟨false, "2024-01-02".toList, []⟩) = none ∧
      (none : Option Todo) ≠ some ⟨false, "2024-01-02".toList, []⟩ := by
  exact ⟨by decide, by decide⟩

/-- C1 (amended): formatting then parsing returns the task unchanged for
every task whose timestamp has the stored `YYYY-MM-DD` digit shape and whose
text is non-empty, contains no newline, and does not end in (Python)
whitespace. -/
theorem c1_format_parse_roundtrip (t : Todo) (hts : isDateFmt t.timestamp = true)
    (hne : t.text ≠ []) (hnl : '\n' ∉ t.text)
    (hws : ∀ a, t.text.getLast? = some a → isPySpace a = false) :
    parseLine (formatLine t) = some t :=
  parseLine_formatLine t hts hne hnl hws

theorem c1_roundtrip_witness :
    parseLine (formatLine ⟨true, "2024-01-02".toList, "buy milk".toList⟩) =
      some ⟨true, "2024-01-02".toList, "buy milk".toList⟩ :=
  c1_format_parse_roundtrip ⟨true, "2024-01-02".toList, "buy milk".toList⟩
    (by decide) (by decide) (by decide)
    (by
      intro a ha
      rw [show (("buy milk".toList).getLast? : Option Char) = some 'k' from rfl] at ha
      injection ha with h
      subst h
      decide)

/-- C2: `save_todos` writes exactly one rendered line per task: first the
unchecked tasks in a stable ascending timestamp sort (sorted, a permutation,
and per-timestamp subsequences kept in input order — three properties that
determine the block uniquely), then the checked tasks in input order. -/
theorem c2_save_todos_spec (todos : List Todo) :
    ∃ u, u.Perm (uncheckedOf todos) ∧ List.Sorted tsLe u ∧
      (∀ s, List.filter (tsPred s) u = List.filter (tsPred s) (uncheckedOf todos)) ∧
      (∀ u2, List.Sorted tsLe u2 →
        (∀ s, List.filter (tsPred s) u2 =
          List.filter (tsPred s) (uncheckedOf todos)) → u2 = u) ∧
      save_todos todos = concatLines (u ++ checkedOf todos) ∧
      ((∀ t ∈ todos, goodTodo t = true) →
        fileLines (save_todos todos) = List.map lineOf (u ++ checkedOf todos)) := by
  refine ⟨sortTs (uncheckedOf todos), sortTs_perm _, sortTs_sorted _,
    fun s => filter_sortTs s _, ?_, rfl, ?_⟩
  · intro u2 hs2 hf2
    exact sorted_filter_unique u2 _ hs2 (sortTs_sorted _)
      (fun s => by rw [hf2 s, filter_sortTs])
  · intro hgood
    rw [save_todos]
    apply fileLines_concatLines
    intro t ht
    rcases List.mem_append.mp ht with ht | ht
    · exact hgood t (List.mem_of_mem_filter ((sortTs_perm _).mem_iff.mp ht))
    · exact hgood t (List.mem_of_mem_filter ht)

/-- C3 counterexample: the claim says the text group may be empty and is
taken verbatim; in fact a line whose text is empty is skipped entirely, and
trailing whitespace is stripped before matching, so text is never taken
verbatim from such a line. -/
theorem c3_parse_counterexample :
    parseLine ("- [ ] 2024-01-02 ".toList) = none ∧
      parseLine ("- [ ] 2024-01-02 a  ".toList) =
        some ⟨false, "2024-01-02".toList, "a".toList⟩ ∧
      ("a".toList : List Char) ≠ "a  ".toList := by
  exact ⟨by decide, by decide, by decide⟩

/-- C3 (amended): `parseLine` accepts exactly the lines whose right-stripped
form matches `- [{ |x}] {YYYY-MM-DD} {text}` with the checkbox exactly a
space or `x`, the date exactly 4+2+2 digits with dashes, and the text the
non-empty newline-free remainder of the stripped line; every other line
yields `none` (it is silently skipped, never an error). -/
theorem c3_parseLine_grammar (line : List Char) (t : Todo) :
    parseLine line = some t ↔
      ∃ c, (c = ' ' ∨ c = 'x') ∧
        rstrip line = '-' :: ' ' :: '[' :: c :: ']' :: ' ' ::
          (t.timestamp ++ ' ' :: t.text) ∧
        isDateFmt t.timestamp = true ∧ t.text ≠ [] ∧ '\n' ∉ t.text ∧
        t.checked = (c == 'x') := by
  rw [parseLine]
  exact parseStripped_eq_some (rstrip line) t

/-- C4 counterexample: with an empty unchecked list and index 0 the command
fails with the NoItems message, not with an IndexOutOfRange message naming
the valid range, contradicting the claim's "always fails with
IndexOutOfRange". -/
theorem c4_empty_list_counterexample :
    check_todo none 0 = ⟨none, some noUncheckedMsg, 1⟩ ∧
      noUncheckedMsg ≠ invalidIndexMsg 0 0 := by
  exact ⟨by decide, by decide⟩

/-- C4 (amended): for an index that is 0, negative, or larger than the
respective target list, `check`/`rm`/`uncheck` exit with status 1 and leave
the stored file byte-for-byte unchanged; when the target list is non-empty
the stderr message is the IndexOutOfRange one naming the valid range
`1..length`, and when it is empty it is the NoItems message. -/
theorem c4_out_of_range (f : Option (List Char)) (i j : Int)
    (hu : i < 1 ∨ ((uncheckedOf (load_todos f)).length : Int) < i)
    (hc : j < 1 ∨ ((checkedOf (load_todos f)).length : Int) < j) :
    check_todo f i = ⟨f, some (if (uncheckedOf (load_todos f)).isEmpty then
        noUncheckedMsg
      else invalidIndexMsg i (uncheckedOf (load_todos f)).length), 1⟩ ∧
    rm_todo f i = ⟨f, some (if (uncheckedOf (load_todos f)).isEmpty then
        noUncheckedMsg
      else invalidIndexMsg i (uncheckedOf (load_todos f)).length), 1⟩ ∧
    uncheck_todo f j = ⟨f, some (if (checkedOf (load_todos f)).isEmpty then
        noCheckedMsg
      else invalidIndexMsg j (checkedOf (load_todos f)).length), 1⟩ := by
  refine ⟨?_, ?_, ?_⟩
  · simp only [check_todo]
    by_cases he : (uncheckedOf (load_todos f)).isEmpty = true
    · rw [if_pos he, if_pos he]
    · rw [if_neg he, if_pos hu, if_neg he]
  · simp only [rm_todo]
    by_cases he : (uncheckedOf (load_todos f)).isEmpty = true
    · rw [if_pos he, if_pos he]
    · rw [if_neg he, if_pos hu, if_neg he]
  · simp only [uncheck_todo]
    by_cases he : (checkedOf (load_todos f)).isEmpty = true
    · rw [if_pos he, if_pos he]
    · rw [if_neg he, if_pos hc, if_neg he]

theorem c4_out_of_range_witness :
    check_todo (some ("- [ ] 2024-01-02 a\n- [x] 2024-01-05 c\n".toList)) 7 =
      ⟨some ("- [ ] 2024-01-02 a\n- [x] 2024-01-05 c\n".toList),
        some ("Invalid index: 7. Must be between 1 and 1.".toList), 1⟩ ∧
    uncheck_todo (some ("- [ ] 2024-01-02 a\n- [x] 2024-01-05 c\n".toList)) 7 =
      ⟨some ("- [ ] 2024-01-02 a\n- [x] 2024-01-05 c\n".toList),
        some ("Invalid index: 7. Must be between 1 and 1.".toList), 1⟩ := by
  have h := c4_out_of_range
    (some ("- [ ] 2024-01-02 a\n- [x] 2024-01-05 c\n".toList)) 7 7
    (by decide) (by decide)
  exact ⟨by rw [h.1]; decide, by rw [h.2.2]; decide⟩

theorem check_todo_valid (f : Option (List Char)) (i : Int)
    (h1 : 1 ≤ i) (h2 : i ≤ ((uncheckedOf (load_todos f)).length : Int)) :
    ∃ item, getElem? (uncheckedOf (load_todos f)) (i - 1).toNat = some item ∧
      check_todo f i = ⟨some (save_todos
        ((uncheckedOf (load_todos f)).eraseIdx (i - 1).toNat ++
          { item with checked := true } :: checkedOf (load_todos f))),
        none, 0⟩ := by
  have hn : (i - 1).toNat < (uncheckedOf (load_todos f)).length := by omega
  have hne : ¬ (uncheckedOf (load_todos f)).isEmpty = true := by
    rw [List.isEmpty_eq_true]
    intro hcon
    rw [hcon] at hn
    simp at hn
  have hrange : ¬ (i < 1 ∨ ((uncheckedOf (load_todos f)).length : Int) < i) := by
    omega
  refine ⟨(uncheckedOf (load_todos f))[(i - 1).toNat], List.getElem?_eq_getElem hn, ?_⟩
  simp only [check_todo]
  rw [if_neg hne, if_neg hrange, List.getElem?_eq_getElem hn]

/-- C5: for a valid 1-based index `i`, `check(i)` removes the i-th unchecked
task (splitting the list around position i), flips its checked flag, inserts
it at the front of the checked list, and saves the combined list. -/
theorem c5_check_valid (f : Option (List Char)) (i : Int)
    (h1 : 1 ≤ i) (h2 : i ≤ ((uncheckedOf (load_todos f)).length : Int)) :
    ∃ item, getElem? (uncheckedOf (load_todos f)) (i - 1).toNat = some item ∧
      check_todo f i = ⟨some (save_todos
        ((List.take (i - 1).toNat (uncheckedOf (load_todos f)) ++
          List.drop ((i - 1).toNat + 1) (uncheckedOf (load_todos f))) ++
          { item with checked := true } :: checkedOf (load_todos f))),
        none, 0⟩ := by
  obtain ⟨item, hitem, hres⟩ := check_todo_valid f i h1 h2
  refine ⟨item, hitem, ?_⟩
  rw [hres, List.eraseIdx_eq_take_drop_succ]

theorem c5_check_valid_witness :
    check_todo (some ("- [ ] 2024-01-02 a\n- [ ] 2024-01-03 b\n".toList)) 2 =
      ⟨some ("- [ ] 2024-01-02 a\n- [x] 2024-01-03 b\n".toList), none, 0⟩ := by
  obtain ⟨item, hitem, hres⟩ := c5_check_valid
    (some ("- [ ] 2024-01-02 a\n- [ ] 2024-01-03 b\n".toList)) 2
    (by decide) (by decide)
  have : item = ⟨false, "2024-01-03".toList, "b".toList⟩ := by
    have h := hitem
    rw [show getElem? (uncheckedOf (load_todos
      (some ("- [ ] 2024-01-02 a\n- [ ] 2024-01-03 b\n".toList))))
      ((2 : Int) - 1).toNat =
      some ⟨false, "2024-01-03".toList, "b".toList⟩ from by decide] at h
    injection h with h
    exact h.symm
  rw [hres, this]
  decide

theorem goodTodo_check_flip (item : Todo) (b : Bool) :
    goodTodo { item with checked := b } = goodTodo item := rfl

theorem check_uncheck_core (u c : List Todo) (item : Todo) (j : Nat)
    (hu : ∀ t ∈ u, t.checked = false) (hcq : ∀ t ∈ c, t.checked = true)
    (hgood : ∀ t ∈ u ++ c, goodTodo t = true)
    (hitem : getElem? u j = some item) :
    uncheck_todo
        (some (save_todos (u.eraseIdx j ++ { item with checked := true } :: c)))
        1 =
      ⟨some (save_todos ((u.eraseIdx j ++ [item]) ++ c)), none, 0⟩ ∧
    load_todos (some (save_todos ((u.eraseIdx j ++ [item]) ++ c))) =
      sortTs (u.eraseIdx j ++ [item]) ++ c := by
  have hmemitem : item ∈ u := by
    obtain ⟨hlt, hval⟩ := List.getElem?_eq_some_iff.mp hitem
    rw [← hval]
    exact List.getElem_mem hlt
  have hchk : item.checked = false := hu item hmemitem
  have hitem_restore :
      ({ checked := false, timestamp := item.timestamp, text := item.text } :
        Todo) = item := by
    rcases item with ⟨chk, ts, txt⟩
    simp only at hchk
    subst hchk
    rfl
  have herased_mem : ∀ t ∈ u.eraseIdx j, t.checked = false :=
    fun t ht => hu t (List.Sublist.mem ht (List.eraseIdx_sublist u j))
  have hcons_chk : ∀ t ∈ ({ item with checked := true } : Todo) :: c,
      t.checked = true := by
    intro t ht
    rcases List.mem_cons.mp ht with rfl | ht
    · rfl
    · exact hcq t ht
  have hgood1 : ∀ t ∈ u.eraseIdx j ++ { item with checked := true } :: c,
      goodTodo t = true := by
    intro t ht
    rcases List.mem_append.mp ht with ht | ht
    · exact hgood t (List.mem_append.mpr
        (Or.inl (List.Sublist.mem ht (List.eraseIdx_sublist u j))))
    · rcases List.mem_cons.mp ht with rfl | ht
      · rw [goodTodo_check_flip]
        exact hgood item (List.mem_append.mpr (Or.inl hmemitem))
      · exact hgood t (List.mem_append.mpr (Or.inr ht))
  obtain ⟨hls1, -, -⟩ := load_save_partition _ hgood1
  have hpart1 := partition_filter (u.eraseIdx j)
    (({ item with checked := true } : Todo) :: c) herased_mem hcons_chk
  rw [hpart1.1, hpart1.2] at hls1
  have hpart2 := partition_filter (sortTs (u.eraseIdx j))
    (({ item with checked := true } : Todo) :: c)
    (mem_sortTs_unchecked _ herased_mem) hcons_chk
  have hui : ∀ t ∈ u.eraseIdx j ++ [item], t.checked = false := by
    intro t ht
    rcases List.mem_append.mp ht with ht | ht
    · exact herased_mem t ht
    · simp at ht
      subst ht
      exact hchk
  have hsave_eq : save_todos ((sortTs (u.eraseIdx j) ++ [item]) ++ c) =
      save_todos ((u.eraseIdx j ++ [item]) ++ c) := by
    unfold save_todos
    have pa := partition_filter (sortTs (u.eraseIdx j) ++ [item]) c
      (by
        intro t ht
        rcases List.mem_append.mp ht with ht | ht
        · exact mem_sortTs_unchecked _ herased_mem t ht
        · simp at ht
          subst ht
          exact hchk) hcq
    have pb := partition_filter (u.eraseIdx j ++ [item]) c hui hcq
    rw [pa.1, pa.2, pb.1, pb.2, sortTs_append_sortTs]
  constructor
  · simp only [uncheck_todo]
    rw [hls1, hpart2.1, hpart2.2]
    rw [if_neg (by simp)]
    rw [if_neg (by simp only [List.length_cons]; omega)]
    rw [show ((1 : Int) - 1).toNat = 0 from rfl, List.getElem?_cons_zero,
      List.eraseIdx_cons_zero]
    dsimp only []
    rw [hitem_restore, hsave_eq]
  · have hgood2 : ∀ t ∈ (u.eraseIdx j ++ [item]) ++ c, goodTodo t = true := by
      intro t ht
      rcases List.mem_append.mp ht with ht | ht
      · rcases List.mem_append.mp ht with ht | ht
        · exact hgood t (List.mem_append.mpr
            (Or.inl (List.Sublist.mem ht (List.eraseIdx_sublist u j))))
        · simp at ht
          rw [ht]
          exact hgood item (List.mem_append.mpr (Or.inl hmemitem))
      · exact hgood t (List.mem_append.mpr (Or.inr ht))
    obtain ⟨hls2, -, -⟩ := load_save_partition _ hgood2
    have hpart3 := partition_filter (u.eraseIdx j ++ [item]) c hui hcq
    rw [hls2, hpart3.1, hpart3.2]

/-- C6 counterexample: with unchecked tasks dated 2024-01-02 and 2024-01-03,
`check 1` then `uncheck 1` restores the first task, but the save re-sorts
unchecked by timestamp, so on disk the restored task is first, not appended
at the end as the claim states. -/
theorem c6_check_uncheck_counterexample :
    (uncheck_todo (check_todo
        (some ("- [ ] 2024-01-02 a\n- [ ] 2024-01-03 b\n".toList)) 1).file 1).file =
      some ("- [ ] 2024-01-02 a\n- [ ] 2024-01-03 b\n".toList) ∧
    (uncheckedOf (load_todos (uncheck_todo (check_todo
        (some ("- [ ] 2024-01-02 a\n- [ ] 2024-01-03 b\n".toList)) 1).file
        1).file)).getLast? = some ⟨false, "2024-01-03".toList, "b".toList⟩ ∧
    (⟨false, "2024-01-03".toList, "b".toList⟩ : Todo) ≠
      ⟨false, "2024-01-02".toList, "a".toList⟩ := by
  exact ⟨by decide, by decide, by decide⟩

/-- C6 (amended): for a valid index `i`, `check(i)` followed by `uncheck(1)`
restores the checked task — with its original text, timestamp and unchecked
flag — to the unchecked list; it is appended at the end of the in-memory
unchecked list, and the final save re-sorts unchecked by ascending timestamp,
so the stored unchecked block is the stable sort of the remaining tasks plus
the restored one, and the checked list is unchanged. -/
theorem c6_check_then_uncheck (f : Option (List Char)) (i : Int)
    (h1 : 1 ≤ i) (h2 : i ≤ ((uncheckedOf (load_todos f)).length : Int)) :
    ∃ item, getElem? (uncheckedOf (load_todos f)) (i - 1).toNat = some item ∧
      item.checked = false ∧
      uncheck_todo (check_todo f i).file 1 =
        ⟨some (save_todos
          (((uncheckedOf (load_todos f)).eraseIdx (i - 1).toNat ++ [item]) ++
            checkedOf (load_todos f))), none, 0⟩ ∧
      uncheckedOf (load_todos (uncheck_todo (check_todo f i).file 1).file) =
        sortTs ((uncheckedOf (load_todos f)).eraseIdx (i - 1).toNat ++ [item]) ∧
      checkedOf (load_todos (uncheck_todo (check_todo f i).file 1).file) =
        checkedOf (load_todos f) ∧
      item ∈ uncheckedOf (load_todos (uncheck_todo (check_todo f i).file 1).file) := by
  obtain ⟨item, hitem, hres⟩ := check_todo_valid f i h1 h2
  have hmemitem : item ∈ uncheckedOf (load_todos f) := by
    obtain ⟨hlt, hval⟩ := List.getElem?_eq_some_iff.mp hitem
    rw [← hval]
    exact List.getElem_mem hlt
  have hgood : ∀ t ∈ uncheckedOf (load_todos f) ++ checkedOf (load_todos f),
      goodTodo t = true := by
    intro t ht
    rcases List.mem_append.mp ht with ht | ht
    · exact load_todos_good f t (List.mem_of_mem_filter ht)
    · exact load_todos_good f t (List.mem_of_mem_filter ht)
  obtain ⟨hstep, hload⟩ := check_uncheck_core (uncheckedOf (load_todos f))
    (checkedOf (load_todos f)) item (i - 1).toNat
    (mem_uncheckedOf_checked _) (mem_checkedOf_checked _) hgood hitem
  refine ⟨item, hitem, mem_uncheckedOf_checked _ item hmemitem, ?_, ?_, ?_, ?_⟩
  · rw [hres]
    exact hstep
  · rw [hres]
    show uncheckedOf (load_todos (uncheck_todo (some (save_todos _)) 1).file) = _
    rw [hstep]
    show uncheckedOf (load_todos (some (save_todos _))) = _
    rw [hload]
    exact (partition_filter _ _ (mem_sortTs_unchecked _ (by
      intro t ht
      rcases List.mem_append.mp ht with ht | ht
      · exact mem_uncheckedOf_checked _ t
          (List.Sublist.mem ht (List.eraseIdx_sublist _ _))
      · simp at ht
        rw [ht]
        exact mem_uncheckedOf_checked _ item hmemitem))
      (mem_checkedOf_checked _)).1
  · rw [hres]
    show checkedOf (load_todos (uncheck_todo (some (save_todos _)) 1).file) = _
    rw [hstep]
    show checkedOf (load_todos (some (save_todos _))) = _
    rw [hload]
    exact (partition_filter _ _ (mem_sortTs_unchecked _ (by
      intro t ht
      rcases List.mem_append.mp ht with ht | ht
      · exact mem_uncheckedOf_checked _ t
          (List.Sublist.mem ht (List.eraseIdx_sublist _ _))
      · simp at ht
        rw [ht]
        exact mem_uncheckedOf_checked _ item hmemitem))
      (mem_checkedOf_checked _)).2
  · rw [hres]
    show item ∈ uncheckedOf (load_todos (uncheck_todo (some (save_todos _)) 1).file)
    rw [hstep]
    show item ∈ uncheckedOf (load_todos (some (save_todos _)))
    rw [hload]
    have : item ∈ sortTs ((uncheckedOf (load_todos f)).eraseIdx (i - 1).toNat ++
        [item]) := by
      rw [(sortTs_perm _).mem_iff]
      exact List.mem_append.mpr (Or.inr (by simp))
    exact List.mem_filter.mpr ⟨List.mem_append.mpr (Or.inl this), by
      simp [mem_uncheckedOf_checked _ item hmemitem]⟩

theorem c6_check_then_uncheck_witness :
    uncheck_todo (check_todo
        (some ("- [ ] 2024-01-02 a\n- [ ] 2024-01-03 b\n".toList)) 1).file 1 =
      ⟨some ("- [ ] 2024-01-02 a\n- [ ] 2024-01-03 b\n".toList), none, 0⟩ := by
  obtain ⟨item, hitem, hchk, hres, -, -, -⟩ := c6_check_then_uncheck
    (some ("- [ ] 2024-01-02 a\n- [ ] 2024-01-03 b\n".toList)) 1
    (by decide) (by decide)
  have : item = ⟨false, "2024-01-02".toList, "a".toList⟩ := by
    have h := hitem
    rw [show getElem? (uncheckedOf (load_todos
      (some ("- [ ] 2024-01-02 a\n- [ ] 2024-01-03 b\n".toList))))
      ((1 : Int) - 1).toNat =
      some ⟨false, "2024-01-02".toList, "a".toList⟩ from by decide] at h
    injection h with h
    exact h.symm
  rw [hres, this]
  decide

/-- C7: for tasks whose timestamps are real dates, `group_by_week` groups each
task under the key `get_week_start` of its timestamp; each key's group holds
exactly the tasks of that week in input order, and the key is the Monday on or
before the task's date: it parses as a date falling on weekday index 0
(Monday), exactly `weekdayIdx` of the task's date (at most 6) days earlier. -/
theorem c7_group_by_week (todos : List Todo)
    (hv : ∀ t ∈ todos, (strptimeYMD t.timestamp).isSome = true) :
    ∃ gs, group_by_week todos = some gs ∧
      (∀ k, lookupKey k gs =
        if weekFilter k todos = [] then none else some (weekFilter k todos)) ∧
      ∀ t ∈ todos, ∃ y m d k y2 m2 d2,
        strptimeYMD t.timestamp = some (y, m, d) ∧
        get_week_start t.timestamp = some k ∧
        t ∈ weekFilter k todos ∧
        strptimeYMD k = some (y2, m2, d2) ∧
        weekdayIdx y2 m2 d2 = 0 ∧
        dayNumber y2 m2 d2 + weekdayIdx y m d = dayNumber y m d ∧
        weekdayIdx y m d ≤ 6 := by
  have hv' : ∀ t ∈ todos, (get_week_start t.timestamp).isSome = true := by
    intro t ht
    rw [get_week_start, Option.isSome_map']
    exact hv t ht
  obtain ⟨gs, hgs, hlook⟩ := groupWeekGo_spec todos [] hv'
  refine ⟨gs, hgs, ?_, ?_⟩
  · intro k
    rw [hlook k]
    show combineGroup none (weekFilter k todos) = _
    cases hW : weekFilter k todos with
    | nil => rw [if_pos rfl]; rfl
    | cons x xs => rw [if_neg (by simp)]; rfl
  · intro t ht
    obtain ⟨⟨y, m, d⟩, hp⟩ := Option.isSome_iff_exists.mp (hv t ht)
    obtain ⟨k, y2, m2, d2, hk, hk2, hw0, hsum, hle⟩ :=
      get_week_start_spec t.timestamp y m d hp
    refine ⟨y, m, d, k, y2, m2, d2, hp, hk, ?_, hk2, hw0, hsum, hle⟩
    exact List.mem_filter.mpr ⟨ht, by simp [hk]⟩

theorem c7_group_by_week_witness :
    (∀ t ∈ [(⟨false, "2026-10-12".toList, "a".toList⟩ : Todo)],
      (strptimeYMD t.timestamp).isSome = true) ∧
    ∃ gs,
      group_by_week [(⟨false, "2026-10-12".toList, "a".toList⟩ : Todo)] =
        some gs ∧
      (∀ k, lookupKey k gs =
        if weekFilter k [(⟨false, "2026-10-12".toList, "a".toList⟩ : Todo)] = []
        then none
        else some
          (weekFilter k [(⟨false, "2026-10-12".toList, "a".toList⟩ : Todo)])) ∧
      ∀ t ∈ [(⟨false, "2026-10-12".toList, "a".toList⟩ : Todo)],
        ∃ y m d k y2 m2 d2,
        strptimeYMD t.timestamp = some (y, m, d) ∧
        get_week_start t.timestamp = some k ∧
        t ∈ weekFilter k [(⟨false, "2026-10-12".toList, "a".toList⟩ : Todo)] ∧
        strptimeYMD k = some (y2, m2, d2) ∧
        weekdayIdx y2 m2 d2 = 0 ∧
        dayNumber y2 m2 d2 + weekdayIdx y m d = dayNumber y m d ∧
        weekdayIdx y m d ≤ 6 :=
  ⟨by decide, c7_group_by_week _ (by decide)⟩

/-- C8: `archive_todos` always exits 0; with an empty checked list it leaves
both files unchanged and prints the informational message; with a non-empty
checked list it appends the checked tasks, in their in-memory order, as lines
to the archive file, and rewrites the primary file so that loading it back
yields exactly the sorted unchecked tasks (all checked tasks are dropped). -/
theorem c8_archive_spec (primary archive : Option (List Char)) :
    (archive_todos primary archive).exit = 0 ∧
    ((checkedOf (load_todos primary)).isEmpty = true →
      (archive_todos primary archive).primary = primary ∧
      (archive_todos primary archive).archive = archive ∧
      (archive_todos primary archive).out = noArchiveMsg) ∧
    ((checkedOf (load_todos primary)).isEmpty = false →
      (archive_todos primary archive).primary =
        some (save_todos (uncheckedOf (load_todos primary))) ∧
      load_todos ((archive_todos primary archive).primary) =
        sortTs (uncheckedOf (load_todos primary)) ∧
      (archive_todos primary archive).archive =
        some (archive.getD [] ++
          concatLines (checkedOf (load_todos primary))) ∧
      (archive_todos primary archive).out =
        archivedMsg (checkedOf (load_todos primary)).length) := by
  by_cases h : (checkedOf (load_todos primary)).isEmpty = true
  · rw [show archive_todos primary archive =
        ⟨primary, archive, noArchiveMsg, 0⟩ from by
      unfold archive_todos
      rw [if_pos h]]
    exact ⟨rfl, fun _ => ⟨rfl, rfl, rfl⟩, fun hc => absurd h (by simp [hc])⟩
  · rw [show archive_todos primary archive =
        ⟨some (save_todos (uncheckedOf (load_todos primary))),
          some (archive.getD [] ++
            concatLines (checkedOf (load_todos primary))),
          archivedMsg (checkedOf (load_todos primary)).length, 0⟩ from by
      unfold archive_todos
      rw [if_neg h]]
    refine ⟨rfl, fun hc => absurd hc h, fun _ => ⟨rfl, ?_, rfl, rfl⟩⟩
    have hgood : ∀ t ∈ uncheckedOf (load_todos primary), goodTodo t = true :=
      fun t ht => load_todos_good primary t (List.mem_of_mem_filter ht)
    obtain ⟨hls, -, -⟩ := load_save_partition _ hgood
    show load_todos (some (save_todos (uncheckedOf (load_todos primary)))) = _
    rw [hls,
      (uncheckedOf_all _ (mem_uncheckedOf_checked (load_todos primary))).1,
      (uncheckedOf_all _ (mem_uncheckedOf_checked (load_todos primary))).2,
      List.append_nil]

theorem c8_archive_spec_witness :
    (archive_todos (some "- [x] 2024-01-02 a\n".toList) none).archive =
      some "- [x] 2024-01-02 a\n".toList ∧
    (archive_todos (some "- [x] 2024-01-02 a\n".toList) none).primary =
      some ([] : List Char) := by
  obtain ⟨-, -, h⟩ := c8_archive_spec (some "- [x] 2024-01-02 a\n".toList) none
  obtain ⟨hp, -, ha, -⟩ := h (by decide)
  constructor
  · rw [ha]
    decide
  · rw [hp]
    decide

theorem unchecked_checked_perm (l : List Todo) :
    (uncheckedOf l ++ checkedOf l).Perm l := by
  have h := List.filter_append_perm (fun t => !t.checked) l
  rw [show List.filter (fun t => !!t.checked) l = checkedOf l from
    List.filter_congr (fun x _ => Bool.not_not _)] at h
  exact h

theorem map_text_taskOf (adds : List (List Char × List Char)) :
    List.map Todo.text (List.map taskOf adds) = List.map Prod.snd adds := by
  rw [List.map_map]
  rfl

/-- C9 counterexample: `add` with an empty text stores a line whose text part
is empty; on the next load that line no longer matches the pattern (the
right-strip removes the separating space and the text group needs at least one
character), so the added text is missing from the loaded multiset. -/
theorem c9_add_counterexample :
    List.map Todo.text
        (load_todos (some (add_todo none "2024-01-02".toList []))) = [] ∧
    ¬ (List.map Todo.text
        (load_todos (some (add_todo none "2024-01-02".toList [])))).Perm
      [([] : List Char)] :=
  ⟨by decide, by decide⟩

/-- C9 (amended): for any non-empty sequence of `add` calls whose dates are in
`YYYY-MM-DD` digit form and whose texts are non-empty, line-break free and do
not end in whitespace, the multiset of task texts after a final load is the
prior loaded texts plus the texts added; on disk the unchecked tasks are
sorted by ascending timestamp, and for each timestamp the tasks carrying it
appear as: the prior unchecked ones in their prior order, then the same-day
added ones in add order (stability); checked tasks are untouched. -/
theorem c9_adds_spec (f : Option (List Char))
    (adds : List (List Char × List Char)) (hne : adds ≠ [])
    (hgood : ∀ x ∈ adds, isDateFmt x.1 = true ∧ goodText x.2 = true) :
    ∃ F, applyAdds f adds = some F ∧
      (List.map Todo.text (load_todos (some F))).Perm
        (List.map Todo.text (load_todos f) ++ List.map Prod.snd adds) ∧
      List.Sorted tsLe (uncheckedOf (load_todos (some F))) ∧
      checkedOf (load_todos (some F)) = checkedOf (load_todos f) ∧
      ∀ s, List.filter (tsPred s) (uncheckedOf (load_todos (some F))) =
        List.filter (tsPred s)
          (uncheckedOf (load_todos f) ++ List.map taskOf adds) := by
  obtain ⟨F, hF, hload⟩ := applyAdds_load_core f adds hne hgood
  have hAu : ∀ t ∈ uncheckedOf (load_todos f) ++ List.map taskOf adds,
      t.checked = false := by
    intro t ht
    rcases List.mem_append.mp ht with ht | ht
    · exact mem_uncheckedOf_checked _ t ht
    · obtain ⟨x, -, hx⟩ := List.mem_map.mp ht
      rw [← hx]
      rfl
  have hpart := partition_filter
    (sortTs (uncheckedOf (load_todos f) ++ List.map taskOf adds))
    (checkedOf (load_todos f))
    (mem_sortTs_unchecked _ hAu) (mem_checkedOf_checked _)
  refine ⟨F, hF, ?_, ?_, ?_, ?_⟩
  · rw [hload, List.map_append]
    have h2 : (sortTs (uncheckedOf (load_todos f) ++ List.map taskOf adds) ++
        checkedOf (load_todos f)).Perm
        (load_todos f ++ List.map taskOf adds) := by
      refine ((sortTs_perm _).append_right _).trans ?_
      have ha : ((uncheckedOf (load_todos f) ++ List.map taskOf adds) ++
          checkedOf (load_todos f)).Perm
          ((uncheckedOf (load_todos f) ++ checkedOf (load_todos f)) ++
            List.map taskOf adds) := by
        rw [List.append_assoc, List.append_assoc]
        exact List.Perm.append_left _ List.perm_append_comm
      exact ha.trans ((unchecked_checked_perm _).append_right _)
    have h3 := h2.map Todo.text
    rw [List.map_append, List.map_append, map_text_taskOf] at h3
    exact h3
  · rw [hload, hpart.1]
    exact sortTs_sorted _
  · rw [hload, hpart.2]
  · intro s
    rw [hload, hpart.1, filter_sortTs]

theorem c9_adds_spec_witness :
    ([("2024-01-02".toList, "a".toList)] ≠
      ([] : List (List Char × List Char))) ∧
    (∀ x ∈ [("2024-01-02".toList, "a".toList)],
      isDateFmt x.1 = true ∧ goodText x.2 = true) ∧
    ∃ F, applyAdds none [("2024-01-02".toList, "a".toList)] = some F ∧
      (List.map Todo.text (load_todos (some F))).Perm
        (List.map Todo.text (load_todos none) ++
          List.map Prod.snd [("2024-01-02".toList, "a".toList)]) ∧
      List.Sorted tsLe (uncheckedOf (load_todos (some F))) ∧
      checkedOf (load_todos (some F)) = checkedOf (load_todos none) ∧
      ∀ s, List.filter (tsPred s) (uncheckedOf (load_todos (some F))) =
        List.filter (tsPred s)
          (uncheckedOf (load_todos none) ++
            List.map taskOf [("2024-01-02".toList, "a".toList)]) :=
  ⟨by decide, by decide, c9_adds_spec none _ (by decide) (by decide)⟩

/-- C10: every task returned by `load_todos` has a non-empty text that does
not end in whitespace (and a digit-format timestamp), because each line is
right-stripped before matching and the text group requires at least one
character; consequently a task whose text is empty or ends in whitespace is
never read back: it is absent from every load result. -/
theorem c10_loaded_text_shape (f : Option (List Char)) :
    (∀ t ∈ load_todos f, t.text ≠ [] ∧
      (∀ a, t.text.getLast? = some a → isPySpace a = false) ∧
      isDateFmt t.timestamp = true) ∧
    ∀ t2 : Todo,
      (t2.text = [] ∨ ∃ a, t2.text.getLast? = some a ∧ isPySpace a = true) →
      t2 ∉ load_todos f := by
  have hmain : ∀ t ∈ load_todos f, t.text ≠ [] ∧
      (∀ a, t.text.getLast? = some a → isPySpace a = false) ∧
      isDateFmt t.timestamp = true := by
    intro t ht
    obtain ⟨hts, hne, -, -, hw⟩ := goodTodo_spec t (load_todos_good f t ht)
    exact ⟨hne, hw, hts⟩
  refine ⟨hmain, ?_⟩
  intro t2 hbad hmem
  obtain ⟨hne, hw, -⟩ := hmain t2 hmem
  rcases hbad with hbad | ⟨a, ha, hsp⟩
  · exact hne hbad
  · rw [hw a ha] at hsp
    exact absurd hsp (by simp)
